import Mathlib

/-!
Verification of the lower-bounded max-flow solver
(`src/part2_assignment/belts/main.py`).

Shallow embedding conventions:
* Python `float` values are modelled as exact rationals `ℚ`; decimal float
  literals of the source (`1e-9`, `1e-12`, `1e100`) are read as the decimal
  rationals they denote.
* Python lists and dicts become Lean lists / association lists; Python dicts
  preserve insertion order, which the association lists mirror.  `set`s are
  used by the source only through membership tests and sorted output, which
  the list model reproduces.
* Python exceptions (`KeyError`, `ValueError` from `float(...)`,
  `AssertionError`) become an `Except` error value.  For errors raised during
  graph construction the error value additionally records the residual-graph
  store at raise time (Python discards it when the exception propagates);
  this lets theorems speak about how much construction had occurred.
* The unbounded `while` loops of `Dinic.max_flow` and the recursion of
  `Dinic._dfs` are given explicit fuel; all theorems below either hold for
  every fuel or instantiate the fuel at a concrete, fully evaluated run.
-/

set_option maxRecDepth 100000

set_option allowUnsafeReducibility true

attribute [local semireducible] Rat.add Rat.mul Rat.sub Rat.div Rat.inv Rat.neg

namespace Belts

/-- One residual arc of the store (`_Edge` dataclass): target node, index of
the paired reverse arc inside the target's adjacency list, and the mutable
residual capacity. -/
structure FlowArc where
  to_ : ℕ
  rev : ℕ
  cap : ℚ
deriving DecidableEq, Repr

/-- Default arc used for (never exercised) out-of-range list reads. -/
def dummyArc : FlowArc := ⟨0, 0, 0⟩

/-- Update the `i`-th entry of a list in place (no-op when out of range). -/
def updAt {α : Type} (l : List α) (i : ℕ) (f : α → α) : List α :=
  match l, i with
  | [], _ => []
  | a :: t, 0 => f a :: t
  | a :: t, n + 1 => a :: updAt t n f

/-- Read arc `i` of node `u`'s adjacency list (`self.g[u][i]`). -/
def geta (g : List (List FlowArc)) (u i : ℕ) : FlowArc :=
  (g.getD u []).getD i dummyArc

/-- Update arc `i` of node `u`'s adjacency list. -/
def updE (g : List (List FlowArc)) (u i : ℕ) (f : FlowArc → FlowArc) :
    List (List FlowArc) :=
  updAt g u (fun row => updAt row i f)

/-- The mutable state of the `Dinic` class: node count, adjacency lists,
BFS levels, per-node arc cursors, and the tolerance `EPS`. -/
structure Dinic where
  n : ℕ
  g : List (List FlowArc)
  level : List ℤ
  it : List ℕ
  EPS : ℚ
deriving DecidableEq, Repr

/-- Python exception kinds that the solver can raise. -/
inductive PyErr where
  /-- `KeyError` from a missing required field. -/
  | keyMissing (field : String)
  /-- `ValueError`/`TypeError` from `float(...)` on a non-numeric value. -/
  | notNumeric
  /-- `AssertionError "Negative capacity not allowed"` in `Dinic.add_edge`. -/
  | negCapAssert
  /-- `AssertionError "Edge ... has hi < lo"` in `build_transformed`. -/
  | hiLtLoAssert (nm : String)
  /-- `AssertionError "This solver expects exactly one source."`. -/
  | singleSourceAssert
deriving DecidableEq, Repr

/-- `Dinic.__init__`. -/
def Dinic.init (n : ℕ) (eps : ℚ) : Dinic :=
  ⟨n, List.replicate n [], List.replicate n 0, List.replicate n 0, eps⟩

/-- `Dinic.add_edge`: asserts `cap ≥ -EPS`, appends a forward arc with
capacity `max 0 cap` and a reverse arc with capacity `0`, and returns the
handle `(fr, len(g[fr]) - 1)` (the length taken after both appends, exactly
as the source does). -/
def Dinic.add_edge (st : Dinic) (fr to_ : ℕ) (cap : ℚ) :
    Except (PyErr × Dinic) (Dinic × ℕ × ℕ) :=
  if -st.EPS ≤ cap then
    let fwd : FlowArc := ⟨to_, (st.g.getD to_ []).length, max 0 cap⟩
    let rv : FlowArc := ⟨fr, (st.g.getD fr []).length, 0⟩
    let g1 := updAt st.g fr (fun row => row ++ [fwd])
    let g2 := updAt g1 to_ (fun row => row ++ [rv])
    .ok ({ st with g := g2 }, fr, (g2.getD fr []).length - 1)
  else .error (.negCapAssert, st)

/-- Inner fold of `Dinic._bfs`: scan the adjacency row of a node whose level
is `lvv`, assigning level `lvv + 1` to unvisited targets of arcs with
residual capacity above `EPS`, and collecting them for the queue. -/
def bfsScanRow (eps : ℚ) (row : List FlowArc) (lv : List ℤ) (lvv : ℤ) :
    List ℤ × List ℕ :=
  match row with
  | [] => (lv, [])
  | e :: rest =>
    if eps < e.cap ∧ lv.getD e.to_ (-1) < 0 then
      let lv' := lv.set e.to_ (lvv + 1)
      let (lv'', q) := bfsScanRow eps rest lv' lvv
      (lv'', e.to_ :: q)
    else bfsScanRow eps rest lv lvv

/-- Queue loop of `Dinic._bfs`; `fuel` bounds the number of dequeues (each
node is enqueued at most once, so `n + 1` dequeues always suffice). -/
def bfsLoop (st : Dinic) (fuel : ℕ) (lv : List ℤ) (q : List ℕ) : List ℤ :=
  match fuel, q with
  | 0, _ => lv
  | _, [] => lv
  | fuel + 1, v :: q' =>
    let (lv', add) := bfsScanRow st.EPS (st.g.getD v []) lv (lv.getD v (-1))
    bfsLoop st fuel lv' (q' ++ add)

/-- `Dinic._bfs`: recompute the level array from `s` and report whether the
sink `t` was reached. -/
def Dinic.bfs (st : Dinic) (s t : ℕ) : Dinic × Bool :=
  let lv0 := (List.replicate st.n (-1 : ℤ)).set s 0
  let lv := bfsLoop st (st.n + 1) lv0 [s]
  ({ st with level := lv }, decide (0 ≤ lv.getD t (-1)))

/-- Scan step of `Dinic.residual_reachable_from`. -/
def reachScanRow (eps : ℚ) (row : List FlowArc) (seen : List ℕ) :
    List ℕ × List ℕ :=
  match row with
  | [] => (seen, [])
  | e :: rest =>
    if eps < e.cap ∧ e.to_ ∉ seen then
      let (seen', q) := reachScanRow eps rest (seen ++ [e.to_])
      (seen', e.to_ :: q)
    else reachScanRow eps rest seen

/-- Queue loop of `Dinic.residual_reachable_from`. -/
def reachLoop (st : Dinic) (fuel : ℕ) (seen : List ℕ) (q : List ℕ) :
    List ℕ :=
  match fuel, q with
  | 0, _ => seen
  | _, [] => seen
  | fuel + 1, v :: q' =>
    let (seen', add) := reachScanRow st.EPS (st.g.getD v []) seen
    reachLoop st fuel seen' (q' ++ add)

/-- `Dinic.residual_reachable_from`: the set of nodes reachable from `s`
through arcs of residual capacity above `EPS`, as a list without
duplicates. -/
def Dinic.residual_reachable_from (st : Dinic) (s : ℕ) : List ℕ :=
  reachLoop st (st.n + 1) [s] [s]

/-- Loop body of `Dinic._dfs` over arc indices `i`, `i+1`, …; `dfsRec` is the
recursive call at the next depth.  Mirrors the source exactly: the cursor
`it[v]` is set to `i` before inspecting arc `i`; the arc is read before the
recursive call and the capacity updates are applied to the state returned by
it. -/
def dfsLoop (dfsRec : Dinic → ℕ → ℚ → ℚ × Dinic) (st : Dinic) (v t : ℕ)
    (f : ℚ) (i rem : ℕ) : ℚ × Dinic :=
  match rem with
  | 0 => (0, st)
  | rem + 1 =>
    if i < (st.g.getD v []).length then
      let st1 := { st with it := st.it.set v i }
      let e := geta st1.g v i
      if st1.EPS < e.cap ∧ st1.level.getD v (-1) < st1.level.getD e.to_ (-1) then
        let (d, st2) := dfsRec st1 e.to_ (min f e.cap)
        if st2.EPS < d then
          let g' := updE (updE st2.g v i (fun x => { x with cap := x.cap - d }))
            e.to_ e.rev (fun x => { x with cap := x.cap + d })
          (d, { st2 with g := g' })
        else dfsLoop dfsRec st2 v t f (i + 1) rem
      else dfsLoop dfsRec st1 v t f (i + 1) rem
    else (0, st)

/-- `Dinic._dfs` with explicit recursion-depth fuel (the source recursion
depth is bounded by the strictly increasing levels along admissible arcs). -/
def Dinic.dfs (fuel : ℕ) (st : Dinic) (v t : ℕ) (f : ℚ) : ℚ × Dinic :=
  match fuel with
  | 0 => (0, st)
  | fuel + 1 =>
    if v = t then (f, st)
    else
      let itv := st.it.getD v 0
      dfsLoop (fun s2 w f2 => Dinic.dfs fuel s2 w t f2) st v t f itv
        ((st.g.getD v []).length - itv)

/-- The `INF` constant of `Dinic.max_flow`. -/
def INF : ℚ := 10 ^ (100 : ℕ)

/-- Inner `while True` loop of `Dinic.max_flow`: repeat DFS pushes until a
push does not exceed `EPS`. -/
def innerLoop (pushFuel dfsFuel : ℕ) (st : Dinic) (s t : ℕ) (acc : ℚ) :
    ℚ × Dinic :=
  match pushFuel with
  | 0 => (acc, st)
  | k + 1 =>
    let (f, st') := Dinic.dfs dfsFuel st s t INF
    if f ≤ st'.EPS then (acc, st')
    else innerLoop k dfsFuel st' s t (acc + f)

/-- Outer phase loop of `Dinic.max_flow`: BFS leveling, cursor reset,
blocking-flow pushes; stops when BFS no longer reaches `t`. -/
def maxFlowLoop (phaseFuel pushFuel dfsFuel : ℕ) (st : Dinic) (s t : ℕ)
    (acc : ℚ) : ℚ × Dinic :=
  match phaseFuel with
  | 0 => (acc, st)
  | k + 1 =>
    let (st1, reached) := st.bfs s t
    if reached then
      let st2 := { st1 with it := List.replicate st1.n 0 }
      let (acc', st3) := innerLoop pushFuel dfsFuel st2 s t acc
      maxFlowLoop k pushFuel dfsFuel st3 s t acc'
    else (acc, st1)

/-- `Dinic.max_flow` (fuelled), returning the flow value and final state. -/
def Dinic.max_flow (fuel : ℕ) (st : Dinic) (s t : ℕ) : ℚ × Dinic :=
  maxFlowLoop fuel fuel fuel st s t 0

/-- `Dinic.flow_used`: the amount pushed through the arc at handle
`(fr, idx)`, read off as the paired reverse arc's residual capacity. -/
def Dinic.flow_used (st : Dinic) (fr idx : ℕ) : ℚ :=
  let fwd := geta st.g fr idx
  (geta st.g fwd.to_ fwd.rev).cap

/-! ### Input model and parsing (`parse_input_json`) -/

/-- A JSON scalar as the parser sees it. -/
inductive JVal where
  | num (q : ℚ)
  | str (s : String)
  | bool (b : Bool)
  | null
deriving DecidableEq, Repr

/-- Value of a nonempty digit string. -/
def digitsVal (l : List Char) : ℚ :=
  l.foldl (fun a c => a * 10 + ((c.toNat : ℚ) - 48)) 0

/-- Decimal string parser backing `float(str)`: optional sign, digits,
optional fractional part ("1", "-2.5", "1.", ".5").  Python additionally
accepts exponents, `inf`/`nan` and surrounding whitespace; those forms are
not modelled (no claim exercises them) — they only widen the set of strings
`float` accepts. -/
def parseDec (s : String) : Option ℚ :=
  let l := s.data
  let signed : ℚ × List Char :=
    match l with
    | '-' :: r => (-1, r)
    | '+' :: r => (1, r)
    | _ => (1, l)
  match (signed.2.splitOn '.') with
  | [ip] =>
    if ip ≠ [] ∧ ip.all Char.isDigit then some (signed.1 * digitsVal ip)
    else none
  | [ip, fp] =>
    if (ip ≠ [] ∨ fp ≠ []) ∧ ip.all Char.isDigit ∧ fp.all Char.isDigit then
      some (signed.1 * (digitsVal ip + digitsVal fp / 10 ^ fp.length))
    else none
  | _ => none

/-- Python `float(...)` on a JSON scalar (`float(True) = 1.0`;
`float(None)` and non-numeric strings raise). -/
def pyFloat : JVal → Except PyErr ℚ
  | .num q => .ok q
  | .bool b => .ok (if b then 1 else 0)
  | .str s => match parseDec s with
    | some q => .ok q
    | none => .error .notNumeric
  | .null => .error .notNumeric

/-- The `EdgeSpec` dataclass. -/
structure EdgeSpec where
  u : String
  v : String
  lo : ℚ
  hi : ℚ
  name : Option String
deriving DecidableEq, Repr

/-- The `Problem` dataclass.  `nodes` is a Python `set`, consumed only
through sorted deduplication and membership, so a list with possible
duplicates models it; `node_caps` and `sources` are insertion-ordered
dicts, modelled as association lists with distinct keys. -/
structure Problem where
  nodes : List String
  edges : List EdgeSpec
  node_caps : List (String × ℚ)
  sources : List (String × ℚ)
  sink : String
  eps : ℚ
deriving DecidableEq, Repr

/-- One entry of the input's `edges` list.  `from`/`to` are passed through
`str(...)` (total), so they are modelled as strings, `Option` marking a
missing key; `lo`/`hi` go through `float(...)` and stay JSON scalars. -/
structure JEdge where
  from_ : Option String
  to_ : Option String
  lo : Option JVal
  hi : Option JVal
  name : Option String
deriving DecidableEq, Repr

/-- The JSON input object, with exactly the fields `parse_input_json`
reads. -/
structure InputJson where
  tolerance : Option JVal
  edges : List JEdge
  node_caps : List (String × JVal)
  sources : List (String × JVal)
  sink : Option String
  nodes : List String
deriving DecidableEq, Repr

/-- Python dict assignment: overwrite the value at an existing key in
place, else append. -/
def dictInsert {α : Type} (d : List (String × α)) (k : String) (v : α) :
    List (String × α) :=
  if d.any (fun p => p.1 = k) then
    d.map (fun p => if p.1 = k then (k, v) else p)
  else d ++ [(k, v)]

/-- Insertion-ordered dict built from a key/value list (JSON object
semantics: a repeated key keeps its first position with its last value). -/
def dictOf {α : Type} (l : List (String × α)) : List (String × α) :=
  l.foldl (fun d p => dictInsert d p.1 p.2) []

/-- `{str(k): float(v) for k, v in ...}`: convert every value, failing on
the first non-numeric one. -/
def convPairs : List (String × JVal) → Except PyErr (List (String × ℚ))
  | [] => .ok []
  | (k, v) :: rest => do
    let q ← pyFloat v
    let rest' ← convPairs rest
    .ok ((k, q) :: rest')

/-- The `edges` loop of `parse_input_json`: required keys `from`, `to`,
`lo`, `hi`; `lo`/`hi` through `float`; label defaulting
(`e.get("name") or f"e{i}"`, so an absent or empty name becomes `e{i}`). -/
def parseEdges : List JEdge → ℕ → Except PyErr (List EdgeSpec)
  | [], _ => .ok []
  | e :: rest, i => do
    let u ← match e.from_ with
      | some s => Except.ok s
      | none => .error (.keyMissing "from")
    let v ← match e.to_ with
      | some s => Except.ok s
      | none => .error (.keyMissing "to")
    let lo ← match e.lo with
      | some x => pyFloat x
      | none => .error (.keyMissing "lo")
    let hi ← match e.hi with
      | some x => pyFloat x
      | none => .error (.keyMissing "hi")
    let nm := match e.name with
      | some s => if s = "" then "e" ++ toString i else s
      | none => "e" ++ toString i
    let rest' ← parseEdges rest (i + 1)
    .ok (⟨u, v, lo, hi, some nm⟩ :: rest')

/-- `parse_input_json`, in the source's evaluation order: tolerance, edges,
node_caps, sources, sink; then the node-name set is assembled and caps on
declared source/sink nodes are stripped. -/
def parse_input_json (data : InputJson) : Except PyErr Problem := do
  let eps ← pyFloat (data.tolerance.getD (JVal.num ((1 : ℚ) / 10 ^ 9)))
  let edges ← parseEdges data.edges 0
  let node_caps ← convPairs (dictOf data.node_caps)
  let sources ← convPairs (dictOf data.sources)
  let sink ← match data.sink with
    | some s => Except.ok s
    | none => .error (.keyMissing "sink")
  let nodes := data.nodes ++ (edges.flatMap fun e => [e.u, e.v]) ++
    sources.map Prod.fst ++ [sink]
  let caps := node_caps.filter
    (fun p => ¬ (sources.any (fun q => q.1 = p.1) ∨ p.1 = sink))
  .ok ⟨nodes, edges, caps, sources, sink, eps⟩

/-! ### Python string and tuple ordering

Python compares strings lexicographically by code point and tuples
componentwise; `sorted` is a stable sort driven by `<`.  The built-in
`String.lt` of Lean is iterator-based and does not reduce in the kernel, so
the comparison is modelled directly on the character lists. -/

/-- Lexicographic strict comparison of character lists by code point. -/
def strLtL : List Char → List Char → Bool
  | [], [] => false
  | [], _ :: _ => true
  | _ :: _, [] => false
  | a :: as, b :: bs => a.toNat < b.toNat || (a.toNat == b.toNat && strLtL as bs)

/-- Python `a < b` on strings. -/
def pyStrLt (a b : String) : Bool := strLtL a.data b.data

/-- The (non-strict) ordering used to model `sorted` on strings: `a` may
come before `b` iff `b < a` fails. -/
def strLE (a b : String) : Prop := pyStrLt b a = false

instance : DecidableRel strLE := fun _ _ => instDecidableEqBool _ _

theorem strLtL_irrefl : ∀ l, strLtL l l = false
  | [] => rfl
  | _ :: as => by simp [strLtL, strLtL_irrefl as]

theorem strLtL_asymm : ∀ a b, strLtL a b = true → strLtL b a = true → False
  | [], [], h1, _ => by simp [strLtL] at h1
  | [], _ :: _, _, h2 => by simp [strLtL] at h2
  | _ :: _, [], h1, _ => by simp [strLtL] at h1
  | a :: as, b :: bs, h1, h2 => by
    simp only [strLtL, Bool.or_eq_true, Bool.and_eq_true, decide_eq_true_eq,
      beq_iff_eq] at h1 h2
    rcases h1 with h1 | ⟨e1, r1⟩ <;> rcases h2 with h2 | ⟨e2, r2⟩ <;>
      first
        | omega
        | exact strLtL_asymm as bs r1 r2

theorem strLtL_trans :
    ∀ a b c, strLtL a b = true → strLtL b c = true → strLtL a c = true
  | [], _ :: _, _ :: _, _, _ => rfl
  | [], [], _, h1, _ => by simp [strLtL] at h1
  | [], _ :: _, [], _, h2 => by simp [strLtL] at h2
  | _ :: _, [], _, h1, _ => by simp [strLtL] at h1
  | _ :: _, _ :: _, [], _, h2 => by simp [strLtL] at h2
  | a :: as, b :: bs, c :: cs, h1, h2 => by
    simp only [strLtL, Bool.or_eq_true, Bool.and_eq_true, decide_eq_true_eq,
      beq_iff_eq] at h1 h2 ⊢
    rcases h1 with h1 | ⟨e1, r1⟩ <;> rcases h2 with h2 | ⟨e2, r2⟩
    · exact Or.inl (h1.trans h2)
    · exact Or.inl (e2 ▸ h1)
    · exact Or.inl (e1 ▸ h2)
    · exact Or.inr ⟨e1.trans e2, strLtL_trans as bs cs r1 r2⟩

theorem charEq_of_toNat {a b : Char} (h : a.toNat = b.toNat) : a = b :=
  Char.ext (UInt32.ext h)

theorem strLtL_trichotomy :
    ∀ a b, strLtL a b = true ∨ a = b ∨ strLtL b a = true
  | [], [] => Or.inr (Or.inl rfl)
  | [], _ :: _ => Or.inl rfl
  | _ :: _, [] => Or.inr (Or.inr rfl)
  | a :: as, b :: bs => by
    rcases Nat.lt_trichotomy a.toNat b.toNat with h | h | h
    · exact Or.inl (by simp [strLtL, h])
    · rcases strLtL_trichotomy as bs with h' | h' | h'
      · exact Or.inl (by simp [strLtL, h, h'])
      · exact Or.inr (Or.inl (by rw [charEq_of_toNat h, h']))
      · exact Or.inr (Or.inr (by simp [strLtL, h.symm, h']))
    · exact Or.inr (Or.inr (by simp [strLtL, h]))

instance : IsTotal String strLE := by
  constructor
  intro a b
  by_cases h : pyStrLt b a = false
  · exact Or.inl h
  · refine Or.inr ?_
    simp only [strLE, Bool.not_eq_false] at h ⊢
    rcases Bool.eq_false_or_eq_true (pyStrLt a b) with h' | h'
    · exact absurd (strLtL_asymm _ _ h' h) not_false
    · exact h'

instance : IsTrans String strLE := by
  constructor
  intro a b c hab hbc
  simp only [strLE, pyStrLt] at hab hbc ⊢
  rcases Bool.eq_false_or_eq_true (strLtL c.data a.data) with h | h
  · exfalso
    rcases strLtL_trichotomy a.data b.data with h' | h' | h'
    · rw [strLtL_trans _ _ _ h h'] at hbc; exact Bool.true_eq_false.mp hbc
    · rw [h'] at h; rw [h] at hbc; exact Bool.true_eq_false.mp hbc
    · rw [h'] at hab; exact Bool.true_eq_false.mp hab
  · exact h

/-- Python `sorted` on a list of strings. -/
def sortStr (l : List String) : List String := List.insertionSort strLE l

/-- Python `sorted(set(...))` on strings: deduplicate, then sort. -/
def sortDedupStr (l : List String) : List String := sortStr l.dedup

/-- `E.name or ""`. -/
def nameOr (o : Option String) : String :=
  match o with
  | some s => s
  | none => ""

/-- `edge_sort_key`: the deterministic sort key `(E.u, E.v, E.name or "")`. -/
def edge_sort_key (E : EdgeSpec) : String × String × String :=
  (E.u, E.v, nameOr E.name)

/-- Python `<` on `(str, str, str)` tuples. -/
def key3Lt (a b : String × String × String) : Bool :=
  strLtL a.1.data b.1.data ||
    (a.1 == b.1 && (strLtL a.2.1.data b.2.1.data ||
      (a.2.1 == b.2.1 && strLtL a.2.2.data b.2.2.data)))

/-- Ordering driving `sorted(edges, key=edge_sort_key)`. -/
def edgeLE (a b : EdgeSpec) : Prop :=
  key3Lt (edge_sort_key b) (edge_sort_key a) = false

instance : DecidableRel edgeLE := fun _ _ => instDecidableEqBool _ _

/-- Python `<` on `(str, float)` pairs. -/
def pairLt (a b : String × ℚ) : Bool :=
  strLtL a.1.data b.1.data || (a.1 == b.1 && decide (a.2 < b.2))

/-- Ordering driving `sorted(node_caps.items())`. -/
def pairLE (a b : String × ℚ) : Prop := pairLt b a = false

instance : DecidableRel pairLE := fun _ _ => instDecidableEqBool _ _

/-- `sorted(self.P.edges, key=edge_sort_key)`. -/
def sortEdges (l : List EdgeSpec) : List EdgeSpec := List.insertionSort edgeLE l

/-- `sorted(self.P.node_caps.items())`. -/
def sortPairs (l : List (String × ℚ)) : List (String × ℚ) :=
  List.insertionSort pairLE l

/-! ### The solver (`LowerBoundFlowSolver`) -/

/-- `base_name`: coalesce split names `v__in` / `v__out` back to `v`. -/
def base_name (nm : String) : String :=
  if "__in".data <:+ nm.data then String.mk (nm.data.take (nm.data.length - 4))
  else if "__out".data <:+ nm.data then
    String.mk (nm.data.take (nm.data.length - 5))
  else nm

/-- `v in self.P.node_caps`. -/
def hasCap (P : Problem) (x : String) : Bool :=
  P.node_caps.any (fun p => p.1 = x)

/-- `_all_graph_nodes`: all original names plus both split names of every
capped node, sorted and deduplicated. -/
def _all_graph_nodes (P : Problem) : List String :=
  sortDedupStr (P.nodes ++ P.node_caps.map (fun p => p.1 ++ "__in") ++
    P.node_caps.map (fun p => p.1 ++ "__out"))

/-- `_to_final_name`: the transformed-graph name a node plays in source
(`as_src`) or target position. -/
def _to_final_name (P : Problem) (x : String) (as_src : Bool) : String :=
  if hasCap P x then (if as_src then x ++ "__out" else x ++ "__in") else x

/-- `self.name2id[nm]` (the index of `nm` in the sorted node list). -/
def idOf (bn : List String) (nm : String) : ℕ := bn.indexOf nm

/-- Metadata record kept in `self.edge_map` for each original edge. -/
structure EdgeMeta where
  orig_u : String
  orig_v : String
  u_final : ℕ
  v_final : ℕ
  lo : ℚ
  hi : ℚ
  name : Option String
  handle : ℕ × ℕ
deriving DecidableEq, Repr

/-- The solver's state after `build_transformed`. -/
structure SolverSt where
  P : Problem
  base_nodes : List String
  flow : Dinic
  SS : ℕ
  TT : ℕ
  cap_arc_handle : List (String × (ℕ × ℕ))
  edge_map : List EdgeMeta
  balance : List ℚ
  required : ℚ
deriving DecidableEq, Repr

/-- `self.id2name.get(vid, "")` (with the `SS`/`TT` entries added by
`build_transformed`). -/
def id2name (S : SolverSt) (vid : ℕ) : String :=
  if vid < S.base_nodes.length then S.base_nodes.getD vid ""
  else if vid = S.SS then "SS"
  else if vid = S.TT then "TT"
  else ""

/-- `self.balance[i] += d` (no-op outside the table, which never happens in
a run: the table has one entry per node id). -/
def balAdd (bal : List ℚ) (i : ℕ) (d : ℚ) : List ℚ :=
  updAt bal i (fun b => b + d)

/-- Node-cap arc loop of `build_transformed`: for each capped node (in
sorted order) add the `v__in → v__out` arc and record its handle. -/
def addCapArcs (bn : List String) :
    Dinic → List (String × ℚ) →
      Except (PyErr × Dinic) (Dinic × List (String × (ℕ × ℕ)))
  | st, [] => .ok (st, [])
  | st, (v, cap) :: rest => do
    let fr := idOf bn (v ++ "__in")
    let tn := idOf bn (v ++ "__out")
    let (st', h) ← st.add_edge fr tn cap
    let (st'', hs) ← addCapArcs bn st' rest
    .ok (st'', (v, h) :: hs)

/-- Original-edge loop of `build_transformed`: assert `hi + eps ≥ lo`, add
an arc of capacity `max 0 (hi - lo)`, record the metadata, and shift the
balances by the lower bound. -/
def addOrigEdges (bn : List String) (P : Problem) :
    Dinic → List ℚ → List EdgeSpec →
      Except (PyErr × Dinic) (Dinic × List ℚ × List EdgeMeta)
  | st, bal, [] => .ok (st, bal, [])
  | st, bal, e :: rest =>
    if e.lo ≤ e.hi + P.eps then do
      let u_id := idOf bn (_to_final_name P e.u true)
      let v_id := idOf bn (_to_final_name P e.v false)
      let (st', h) ← st.add_edge u_id v_id (max 0 (e.hi - e.lo))
      let bal' := balAdd (balAdd bal u_id (-e.lo)) v_id e.lo
      let (st'', bal'', metas) ← addOrigEdges bn P st' bal' rest
      .ok (st'', bal'', (⟨e.u, e.v, u_id, v_id, e.lo, e.hi, e.name, h⟩ :
        EdgeMeta) :: metas)
    else .error (.hiLtLoAssert (nameOr e.name), st)

/-- Super-source/super-sink hookup of `build_transformed`: walk the balance
table in node-id order, wiring `SS → node` for balances above `eps`
(accumulating `required`) and `node → TT` for balances below `-eps`. -/
def hookLoop (SS TT : ℕ) (eps : ℚ) :
    Dinic → List (ℕ × ℚ) → ℚ → Except (PyErr × Dinic) (Dinic × ℚ)
  | st, [], req => .ok (st, req)
  | st, (i, b) :: rest, req =>
    if eps < b then do
      let (st', _) ← st.add_edge SS i b
      hookLoop SS TT eps st' rest (req + b)
    else if b < -eps then do
      let (st', _) ← st.add_edge i TT (-b)
      hookLoop SS TT eps st' rest req
    else hookLoop SS TT eps st rest req

/-- `LowerBoundFlowSolver.build_transformed`.  On an assertion failure the
error records the store built so far. -/
def build_transformed (P : Problem) : Except (PyErr × Dinic) SolverSt := do
  let bn := _all_graph_nodes P
  let n := bn.length
  let SS := n
  let TT := n + 1
  let (st1, capHs) ← addCapArcs bn (Dinic.init (n + 2) P.eps)
    (sortPairs P.node_caps)
  let (st2, bal1, metas) ← addOrigEdges bn P st1 (List.replicate n (0 : ℚ))
    (sortEdges P.edges)
  match P.sources with
  | [(src_name, s_total)] =>
    let src_id := idOf bn (_to_final_name P src_name true)
    let sink_id := idOf bn (_to_final_name P P.sink false)
    let bal2 := balAdd (balAdd bal1 sink_id (-s_total)) src_id s_total
    let (st3, req) ← hookLoop SS TT P.eps st2 bal2.enum 0
    .ok ⟨P, bn, st3, SS, TT, capHs, metas, bal2, req⟩
  | _ => .error (.singleSourceAssert, st2)

/-- One per-edge record of the success output. -/
structure FlowEntry where
  from_ : String
  to_ : String
  flow : ℚ
deriving DecidableEq, Repr

/-- One tight-edge record of the infeasibility certificate. -/
structure TightEdge where
  from_ : String
  to_ : String
  flow_needed : ℚ
deriving DecidableEq, Repr

/-- The solver's result variants. -/
inductive SolveResult where
  | ok (max_flow_per_min : ℚ) (flows : List FlowEntry)
  | infeasible (cut_reachable : List String) (demand_balance : ℚ)
      (tight_nodes : List String) (tight_edges : List TightEdge)
deriving DecidableEq, Repr

/-- `_success_output`: per-edge flow `lo + flow_used`, clamped into
`[lo, hi + eps]`, and the total flow into the original sink. -/
def _success_output (S : SolverSt) : SolveResult :=
  let flows := S.edge_map.map (fun m =>
    let used := S.flow.flow_used m.handle.1 m.handle.2
    let f := max m.lo (min (m.hi + S.P.eps) (m.lo + used))
    (⟨m.orig_u, m.orig_v, f⟩ : FlowEntry))
  let total := (flows.filter (fun r => r.to_ = S.P.sink)).foldl
    (fun a r => a + r.flow) 0
  .ok total flows

/-- Whether an original edge is tight for the certificate: its transformed
endpoints straddle the reachable set and its residual is `≤ eps`. -/
def tightQ (S : SolverSt) (R : List ℕ) (m : EdgeMeta) : Bool :=
  R.contains m.u_final && !R.contains m.v_final &&
    decide ((geta S.flow.g m.handle.1 m.handle.2).cap ≤ S.P.eps)

/-- Tight-edge fold of `_infeasible_certificate`, with (from, to)
deduplication through `seen_pairs`. -/
def tightEdgesGo (S : SolverSt) (R : List ℕ) :
    List EdgeMeta → List (String × String) → List TightEdge
  | [], _ => []
  | m :: rest, seen =>
    if tightQ S R m && !seen.contains (m.orig_u, m.orig_v) then
      ⟨m.orig_u, m.orig_v, 0⟩ ::
        tightEdgesGo S R rest ((m.orig_u, m.orig_v) :: seen)
    else tightEdgesGo S R rest seen

/-- Whether a node-cap arc is tight (same straddle-and-saturation rule). -/
def tightCapQ (S : SolverSt) (R : List ℕ) (h : ℕ × ℕ) : Bool :=
  R.contains h.1 && !R.contains (geta S.flow.g h.1 h.2).to_ &&
    decide ((geta S.flow.g h.1 h.2).cap ≤ S.P.eps)

/-- `_infeasible_certificate`. -/
def _infeasible_certificate (S : SolverSt) (total : ℚ) : SolveResult :=
  let R := S.flow.residual_reachable_from S.SS
  let cut_nodes := sortDedupStr ((R.filter (fun vid =>
    !(id2name S vid == "SS" || id2name S vid == "TT"))).map
      (fun vid => base_name (id2name S vid)))
  let tight_edges := tightEdgesGo S R S.edge_map []
  let tight_nodes := sortStr ((S.cap_arc_handle.filter
    (fun p => tightCapQ S R p.2)).map Prod.fst)
  let deficit := max 0 (S.required - total)
  let k := tight_edges.length
  let tight_edges' :=
    if 1 ≤ k ∧ S.P.eps < deficit then
      tight_edges.map (fun te => { te with flow_needed := deficit / (k : ℚ) })
    else tight_edges
  .infeasible cut_nodes deficit tight_nodes tight_edges'

/-- The max-flow value `pushed` computed inside `solve`. -/
def pushedOf (S : SolverSt) (fuel : ℕ) : ℚ :=
  (Dinic.max_flow fuel S.flow S.SS S.TT).1

/-- The solver state after the max-flow run inside `solve`. -/
def flowedSt (S : SolverSt) (fuel : ℕ) : SolverSt :=
  { S with flow := (Dinic.max_flow fuel S.flow S.SS S.TT).2 }

/-- `LowerBoundFlowSolver.solve` after `build_transformed`: run the engine,
then branch on `pushed + 1e-12 ≥ required - eps`. -/
def solveSt (S : SolverSt) (fuel : ℕ) : SolveResult :=
  if S.required - S.P.eps ≤ pushedOf S fuel + 1 / 10 ^ 12 then
    _success_output (flowedSt S fuel)
  else _infeasible_certificate (flowedSt S fuel) (pushedOf S fuel)

/-- `LowerBoundFlowSolver(prob).solve()`. -/
def solveProb (P : Problem) (fuel : ℕ) : Except (PyErr × Dinic) SolveResult :=
  (build_transformed P).map (fun S => solveSt S fuel)

/-- `solve_lower_bounded_flow`: parse, build, solve.  The error component
keeps the partially built store when the failure happened during graph
construction, and `none` when it happened during parsing. -/
def solve_lower_bounded_flow (data : InputJson) (fuel : ℕ) :
    Except (PyErr × Option Dinic) SolveResult :=
  match parse_input_json data with
  | .error e => .error (e, none)
  | .ok P =>
    match build_transformed P with
    | .error (e, d) => .error (e, some d)
    | .ok S => .ok (solveSt S fuel)

instance {ε α : Type} [DecidableEq ε] [DecidableEq α] :
    DecidableEq (Except ε α) := fun a b =>
  match a, b with
  | .error e, .error f =>
    if h : e = f then .isTrue (congrArg Except.error h)
    else .isFalse (fun c => h (by cases c; rfl))
  | .ok x, .ok y =>
    if h : x = y then .isTrue (congrArg Except.ok h)
    else .isFalse (fun c => h (by cases c; rfl))
  | .error _, .ok _ => .isFalse (fun c => by cases c)
  | .ok _, .error _ => .isFalse (fun c => by cases c)

instance : Inhabited Dinic := ⟨Dinic.init 0 0⟩

instance : Inhabited Problem := ⟨⟨[], [], [], [], "", 0⟩⟩

instance : Inhabited SolverSt := ⟨⟨default, [], default, 0, 0, [], [], [], 0⟩⟩

/-- The state `build_transformed` produces (default on failure); lets closed
statements name the concrete built state of a concrete problem. -/
def stOfP (P : Problem) : SolverSt :=
  match build_transformed P with
  | .ok S => S
  | .error _ => default

/-- The problem `parse_input_json` produces (default on failure). -/
def probOf (data : InputJson) : Problem :=
  match parse_input_json data with
  | .ok P => P
  | .error _ => default

/-- Shorthand for a numeric JSON scalar. -/
def jnum (q : ℚ) : JVal := .num q

/-- Scenario A of the specification (infeasible). -/
def inputA : InputJson :=
  { tolerance := some (jnum (1 / 10 ^ 9))
    edges := [
      ⟨some "s", some "a", some (jnum 0), some (jnum 1500), none⟩,
      ⟨some "a", some "b", some (jnum 0), some (jnum 800), none⟩,
      ⟨some "b", some "sink", some (jnum 200), some (jnum 800), none⟩,
      ⟨some "a", some "c", some (jnum 0), some (jnum 500), none⟩,
      ⟨some "c", some "sink", some (jnum 0), some (jnum 500), none⟩]
    node_caps := [("a", jnum 1500), ("b", jnum 800), ("c", jnum 500)]
    sources := [("s", jnum 1500)]
    sink := some "sink"
    nodes := ["s", "a", "b", "c", "sink"] }

/-- Scenario B of the specification (feasible). -/
def inputB : InputJson :=
  { tolerance := some (jnum (1 / 10 ^ 9))
    edges := [
      ⟨some "s", some "a", some (jnum 0), some (jnum 1500), none⟩,
      ⟨some "a", some "b", some (jnum 0), some (jnum 900), none⟩,
      ⟨some "b", some "sink", some (jnum 200), some (jnum 1200), none⟩,
      ⟨some "a", some "c", some (jnum 0), some (jnum 600), none⟩,
      ⟨some "c", some "sink", some (jnum 0), some (jnum 800), none⟩]
    node_caps := [("a", jnum 1500), ("b", jnum 900), ("c", jnum 1500)]
    sources := [("s", jnum 1500)]
    sink := some "sink"
    nodes := ["s", "a", "b", "c", "sink"] }

/-! ### Helper lemmas -/

theorem hookLoop_req (SS TT : ℕ) (eps : ℚ) :
    ∀ (l : List (ℕ × ℚ)) (st : Dinic) (req : ℚ) (st' : Dinic) (req' : ℚ),
      hookLoop SS TT eps st l req = .ok (st', req') →
      req' = req + ((l.map Prod.snd).filter (fun b => eps < b)).sum
  | [], st, req, st', req', h => by
    simp only [hookLoop] at h
    cases h
    simp
  | (i, b) :: rest, st, req, st', req', h => by
    simp only [hookLoop] at h
    by_cases hb : eps < b
    · rw [if_pos hb] at h
      cases hadd : st.add_edge SS i b with
      | error e => rw [hadd] at h; cases h
      | ok v =>
        rw [hadd] at h
        simp only [bind, Except.bind] at h
        have := hookLoop_req SS TT eps rest v.1 (req + b) st' req' h
        rw [this]
        simp only [List.map_cons, List.filter_cons]
        rw [if_pos (by simp [hb])]
        rw [List.sum_cons]
        ring
    · rw [if_neg hb] at h
      by_cases hb2 : b < -eps
      · rw [if_pos hb2] at h
        cases hadd : st.add_edge i TT (-b) with
        | error e => rw [hadd] at h; cases h
        | ok v =>
          rw [hadd] at h
          simp only [bind, Except.bind] at h
          have := hookLoop_req SS TT eps rest v.1 req st' req' h
          simpa [List.filter_cons, hb] using this
      · rw [if_neg hb2] at h
        have := hookLoop_req SS TT eps rest st req st' req' h
        simpa [List.filter_cons, hb] using this

/-- Unpack a successful `build_transformed` into its stages. -/
theorem build_elim (P : Problem) (S : SolverSt)
    (hb : build_transformed P = .ok S) :
    ∃ st1 capHs st2 bal1 metas src_name s_total st3 req,
      addCapArcs (_all_graph_nodes P)
          (Dinic.init ((_all_graph_nodes P).length + 2) P.eps)
          (sortPairs P.node_caps) = .ok (st1, capHs) ∧
      addOrigEdges (_all_graph_nodes P) P st1
          (List.replicate (_all_graph_nodes P).length (0 : ℚ))
          (sortEdges P.edges) = .ok (st2, bal1, metas) ∧
      P.sources = [(src_name, s_total)] ∧
      (hookLoop (_all_graph_nodes P).length ((_all_graph_nodes P).length + 1)
          P.eps st2
          (balAdd (balAdd bal1
            (idOf (_all_graph_nodes P) (_to_final_name P P.sink false))
            (-s_total))
            (idOf (_all_graph_nodes P) (_to_final_name P src_name true))
            s_total).enum 0 = .ok (st3, req)) ∧
      S = ⟨P, _all_graph_nodes P, st3, (_all_graph_nodes P).length,
        (_all_graph_nodes P).length + 1, capHs, metas,
        balAdd (balAdd bal1
          (idOf (_all_graph_nodes P) (_to_final_name P P.sink false))
          (-s_total))
          (idOf (_all_graph_nodes P) (_to_final_name P src_name true))
          s_total, req⟩ := by
  simp only [build_transformed, bind, Except.bind] at hb
  cases hca : addCapArcs (_all_graph_nodes P)
      (Dinic.init ((_all_graph_nodes P).length + 2) P.eps)
      (sortPairs P.node_caps) with
  | error e => rw [hca] at hb; dsimp only at hb; cases hb
  | ok v =>
    rw [hca] at hb; dsimp only at hb
    cases hoe : addOrigEdges (_all_graph_nodes P) P v.1
        (List.replicate (_all_graph_nodes P).length (0 : ℚ))
        (sortEdges P.edges) with
    | error e => rw [hoe] at hb; dsimp only at hb; cases hb
    | ok w =>
      rw [hoe] at hb; dsimp only at hb
      match hsrc : P.sources with
      | [] => rw [hsrc] at hb; dsimp only at hb; cases hb
      | (sn, stot) :: [] =>
        rw [hsrc] at hb; dsimp only at hb
        cases hhk : hookLoop (_all_graph_nodes P).length
            ((_all_graph_nodes P).length + 1) P.eps w.1
            (balAdd (balAdd w.2.1
              (idOf (_all_graph_nodes P) (_to_final_name P P.sink false))
              (-stot))
              (idOf (_all_graph_nodes P) (_to_final_name P sn true))
              stot).enum 0 with
        | error e => rw [hhk] at hb; dsimp only at hb; cases hb
        | ok u =>
          rw [hhk] at hb; dsimp only at hb
          cases hb
          obtain ⟨st1, capHs⟩ := v
          obtain ⟨st2, bal1, metas⟩ := w
          obtain ⟨st3, req⟩ := u
          exact ⟨st1, capHs, st2, bal1, metas, sn, stot, st3, req,
            rfl, hoe, rfl, hhk, rfl⟩
      | a :: b :: rest => rw [hsrc] at hb; dsimp only at hb; cases hb

theorem success_shape (S : SolverSt) :
    ∃ tot fl, _success_output S = .ok tot fl := ⟨_, _, rfl⟩

theorem infeasible_shape (S : SolverSt) (tot : ℚ) :
    ∃ c d tn te, _infeasible_certificate S tot = .infeasible c d tn te :=
  ⟨_, _, _, _, rfl⟩

/-! ### C1: the Ok/Infeasible branch of `solve` -/

/-- C1 (amended): for every problem that builds, `solve` returns the
success variant iff `pushed + 1e-12 ≥ required − eps`, where `pushed` is the
computed super-source-to-super-sink max flow; otherwise it returns the
infeasibility certificate; `required` is the sum of the post-transform node
balances that exceed `eps`. -/
theorem solve_ok_iff_padded_flow (P : Problem) (S : SolverSt) (fuel : ℕ)
    (hb : build_transformed P = .ok S) :
    ((∃ tot fl, solveSt S fuel = .ok tot fl) ↔
      S.required - P.eps ≤ pushedOf S fuel + 1 / 10 ^ 12) ∧
    ((∃ c d tn te, solveSt S fuel = .infeasible c d tn te) ↔
      ¬ S.required - P.eps ≤ pushedOf S fuel + 1 / 10 ^ 12) ∧
    S.required = (S.balance.filter (fun b => P.eps < b)).sum := by
  obtain ⟨st1, capHs, st2, bal1, metas, sn, stot, st3, req,
    hca, hoe, hsrc, hhk, hS⟩ := build_elim P S hb
  have hP : S.P = P := by rw [hS]
  refine ⟨⟨?_, ?_⟩, ⟨?_, ?_⟩, ?_⟩
  · rintro ⟨tot, fl, hsolve⟩
    by_contra hle
    rw [solveSt, hP, if_neg hle] at hsolve
    obtain ⟨c, d, tn, te, he⟩ :=
      infeasible_shape (flowedSt S fuel) (pushedOf S fuel)
    rw [he] at hsolve
    cases hsolve
  · intro hle
    rw [solveSt, hP, if_pos hle]
    exact success_shape _
  · rintro ⟨c, d, tn, te, hsolve⟩
    intro hle
    rw [solveSt, hP, if_pos hle] at hsolve
    obtain ⟨tot, fl, he⟩ := success_shape (flowedSt S fuel)
    rw [he] at hsolve
    cases hsolve
  · intro hle
    rw [solveSt, hP, if_neg hle]
    exact infeasible_shape _ _
  · have hr := hookLoop_req _ _ _ _ _ _ _ _ hhk
    rw [List.enum_map_snd] at hr
    rw [hS]
    simpa using hr

/-- The problem exhibiting the `1e-12` padding of the branch: tolerance `0`,
supply `1`, a single edge of capacity `1 − 5·10⁻¹³` into the sink. -/
def probPad : Problem :=
  ⟨["s", "t"], [⟨"s", "t", 0, 1 - 5 / 10 ^ 13, some "e0"⟩], [], [("s", 1)],
    "t", 0⟩

/-- C1 counterexample: on `probPad` the solver returns the success variant
although the computed max flow is strictly below `required − eps`; the claim
as stated (success iff `max_flow ≥ required − eps`) is false because the
branch adds an absolute `1e-12` slack. -/
theorem solve_ok_despite_flow_below_required :
    (∃ tot fl, solveSt (stOfP probPad) 20 = .ok tot fl) ∧
    pushedOf (stOfP probPad) 20 <
      (stOfP probPad).required - probPad.eps := by
  constructor
  · exact ⟨1999999999999 / 2000000000000,
      [⟨"s", "t", 1999999999999 / 2000000000000⟩],
      by decide⟩
  · decide

/-- Witness for C1: instantiating `solve_ok_iff_padded_flow` on the spec's
Scenario-A problem. -/
theorem solve_ok_iff_padded_flow_witness :
    ((∃ tot fl, solveSt (stOfP probPad) 20 = .ok tot fl) ↔
      (stOfP probPad).required - probPad.eps ≤
        pushedOf (stOfP probPad) 20 + 1 / 10 ^ 12) ∧
    ((∃ c d tn te, solveSt (stOfP probPad) 20 = .infeasible c d tn te) ↔
      ¬ (stOfP probPad).required - probPad.eps ≤
        pushedOf (stOfP probPad) 20 + 1 / 10 ^ 12) ∧
    (stOfP probPad).required =
      ((stOfP probPad).balance.filter (fun b => probPad.eps < b)).sum :=
  solve_ok_iff_padded_flow probPad (stOfP probPad) 20
    (by decide)

theorem build_P (P : Problem) (S : SolverSt)
    (hb : build_transformed P = .ok S) : S.P = P := by
  obtain ⟨_, _, _, _, _, _, _, _, _, _, _, _, _, hS⟩ := build_elim P S hb
  rw [hS]

/-! ### C4: deficit apportionment in the certificate -/

theorem sum_flow_needed_const (l : List TightEdge) (c : ℚ) :
    ((l.map (fun te => { te with flow_needed := c })).map
      TightEdge.flow_needed).sum = l.length * c := by
  induction l with
  | nil => simp
  | cons a t ih =>
    simp only [List.map_cons, List.sum_cons, ih, List.length_cons]
    push_cast
    ring

theorem infeasible_cert_deficit (S : SolverSt) (total : ℚ)
    (heps : S.P.eps < max 0 (S.required - total))
    (cut : List String) (d : ℚ) (tn : List String) (te : List TightEdge)
    (hc : _infeasible_certificate S total = .infeasible cut d tn te) :
    d = max 0 (S.required - total) ∧
    (∀ x ∈ te, x.flow_needed = d / (te.length : ℚ)) ∧
    (te ≠ [] → (te.map TightEdge.flow_needed).sum = d) := by
  simp only [_infeasible_certificate] at hc
  injection hc with e1 e2 e3 e4
  refine ⟨e2.symm, ?_⟩
  rcases List.eq_nil_or_concat (tightEdgesGo S
      (S.flow.residual_reachable_from S.SS) S.edge_map []) with hTL | hTL
  · rw [hTL] at e4
    simp only [List.length_nil] at e4
    rw [if_neg (by simp)] at e4
    subst e4
    exact ⟨by simp, by simp⟩
  · have hlen : 1 ≤ (tightEdgesGo S
        (S.flow.residual_reachable_from S.SS) S.edge_map []).length := by
      obtain ⟨l', a, hl⟩ := hTL
      rw [hl]
      simp
    rw [if_pos ⟨hlen, heps⟩] at e4
    subst e4 e2
    constructor
    · intro x hx
      rw [List.length_map]
      obtain ⟨y, _, hy⟩ := List.mem_map.mp hx
      rw [← hy]
    · intro _
      rw [sum_flow_needed_const]
      have h0 : ((tightEdgesGo S
          (S.flow.residual_reachable_from S.SS) S.edge_map []).length : ℚ) ≠
          0 := by
        exact_mod_cast Nat.one_le_iff_ne_zero.mp hlen
      field_simp

/-- C4: in every infeasibility certificate the reported deficit equals
`max 0 (required − max_flow)`; when at least one tight edge is reported,
each tight edge's `flow_needed` is the deficit divided by the number of
tight edges, so the `flow_needed` values sum to the deficit exactly; with
zero tight edges the deficit is still reported (with no per-edge share). -/
theorem certificate_deficit_split (P : Problem) (S : SolverSt) (fuel : ℕ)
    (cut : List String) (d : ℚ) (tn : List String) (te : List TightEdge)
    (hb : build_transformed P = .ok S)
    (hs : solveSt S fuel = .infeasible cut d tn te) :
    d = max 0 (S.required - pushedOf S fuel) ∧
    (∀ x ∈ te, x.flow_needed = d / (te.length : ℚ)) ∧
    (te ≠ [] → (te.map TightEdge.flow_needed).sum = d) := by
  have hP : S.P = P := build_P P S hb
  by_cases hcond : S.required - P.eps ≤ pushedOf S fuel + 1 / 10 ^ 12
  · rw [solveSt, hP, if_pos hcond] at hs
    obtain ⟨tot, fl, he⟩ := success_shape (flowedSt S fuel)
    rw [he] at hs
    cases hs
  · rw [solveSt, hP, if_neg hcond] at hs
    have heps : (flowedSt S fuel).P.eps <
        max 0 ((flowedSt S fuel).required - pushedOf S fuel) := by
      push_neg at hcond
      have h1 : P.eps < S.required - pushedOf S fuel := by
        have : (0 : ℚ) < 1 / 10 ^ 12 := by norm_num
        linarith
      have h2 : (flowedSt S fuel).P.eps = P.eps := by rw [flowedSt, hP]
      have h3 : (flowedSt S fuel).required = S.required := by rw [flowedSt]
      rw [h2, h3]
      exact lt_of_lt_of_le h1 (le_max_right _ _)
    have hreq : (flowedSt S fuel).required = S.required := by rw [flowedSt]
    have := infeasible_cert_deficit (flowedSt S fuel) (pushedOf S fuel) heps
      cut d tn te hs
    rw [hreq] at this
    exact this

/-- Witness for C4 at the specification's Scenario A. -/
theorem certificate_deficit_split_witness :
    (200 : ℚ) = max 0 ((stOfP (probOf inputA)).required -
      pushedOf (stOfP (probOf inputA)) 60) ∧
    (∀ x ∈ [(⟨"a", "b", 100⟩ : TightEdge), ⟨"a", "c", 100⟩],
      x.flow_needed = (200 : ℚ) /
        (([(⟨"a", "b", 100⟩ : TightEdge), ⟨"a", "c", 100⟩]).length : ℚ)) ∧
    (([(⟨"a", "b", 100⟩ : TightEdge), ⟨"a", "c", 100⟩]) ≠ [] →
      (([(⟨"a", "b", 100⟩ : TightEdge), ⟨"a", "c", 100⟩]).map
        TightEdge.flow_needed).sum = (200 : ℚ)) :=
  certificate_deficit_split (probOf inputA) (stOfP (probOf inputA)) 60
    ["a", "s"] 200 [] [⟨"a", "b", 100⟩, ⟨"a", "c", 100⟩]
    (by decide) (by decide)

/-! ### C5: clamping of reported flows on the success path -/

theorem addOrigEdges_bounds (bn : List String) (P : Problem) :
    ∀ (es : List EdgeSpec) (st : Dinic) (bal : List ℚ) (st' : Dinic)
      (bal' : List ℚ) (metas : List EdgeMeta),
      addOrigEdges bn P st bal es = .ok (st', bal', metas) →
      ∀ m ∈ metas, m.lo ≤ m.hi + P.eps
  | [], st, bal, st', bal', metas, h => by
    simp only [addOrigEdges] at h
    cases h
    intro m hm
    cases hm
  | e :: rest, st, bal, st', bal', metas, h => by
    simp only [addOrigEdges] at h
    by_cases hlo : e.lo ≤ e.hi + P.eps
    · rw [if_pos hlo] at h
      cases hadd : st.add_edge (idOf bn (_to_final_name P e.u true))
          (idOf bn (_to_final_name P e.v false)) (max 0 (e.hi - e.lo)) with
      | error err => rw [hadd] at h; cases h
      | ok v =>
        rw [hadd] at h
        simp only [bind, Except.bind] at h
        cases hrec : addOrigEdges bn P v.1
            (balAdd (balAdd bal (idOf bn (_to_final_name P e.u true)) (-e.lo))
              (idOf bn (_to_final_name P e.v false)) e.lo) rest with
        | error err => rw [hrec] at h; cases h
        | ok w =>
          rw [hrec] at h
          dsimp only at h
          cases h
          intro m hm
          rcases List.mem_cons.mp hm with hm | hm
          · rw [hm]
            exact hlo
          · exact addOrigEdges_bounds bn P rest v.1 _ w.1 w.2.1 w.2.2 hrec m hm
    · rw [if_neg hlo] at h
      cases h

theorem build_edge_bounds (P : Problem) (S : SolverSt)
    (hb : build_transformed P = .ok S) :
    ∀ m ∈ S.edge_map, m.lo ≤ m.hi + P.eps := by
  obtain ⟨st1, capHs, st2, bal1, metas, sn, stot, st3, req,
    hca, hoe, hsrc, hhk, hS⟩ := build_elim P S hb
  intro m hm
  rw [hS] at hm
  exact addOrigEdges_bounds _ P _ _ _ _ _ _ hoe m hm

/-- C5: in every success result, the reported per-edge flow is
`lo + flow_used(handle)` clamped into `[lo, hi + eps]`; consequently every
reported flow `f` satisfies `lo ≤ f ≤ hi + eps` (so in particular
`lo − eps ≤ f` whenever the tolerance is nonnegative). -/
theorem success_flows_clamped (P : Problem) (S : SolverSt) (fuel : ℕ)
    (tot : ℚ) (fl : List FlowEntry)
    (hb : build_transformed P = .ok S)
    (hs : solveSt S fuel = .ok tot fl) :
    fl = S.edge_map.map (fun m =>
      ⟨m.orig_u, m.orig_v, max m.lo (min (m.hi + P.eps)
        (m.lo + Dinic.flow_used (flowedSt S fuel).flow m.handle.1
          m.handle.2))⟩) ∧
    ∀ r ∈ fl, ∃ m ∈ S.edge_map, r.from_ = m.orig_u ∧ r.to_ = m.orig_v ∧
      m.lo ≤ r.flow ∧ r.flow ≤ m.hi + P.eps ∧
      (0 ≤ P.eps → m.lo - P.eps ≤ r.flow) := by
  have hP : S.P = P := build_P P S hb
  by_cases hcond : S.required - P.eps ≤ pushedOf S fuel + 1 / 10 ^ 12
  · rw [solveSt, hP, if_pos hcond] at hs
    simp only [_success_output] at hs
    injection hs with e1 e2
    have hmap : (flowedSt S fuel).edge_map = S.edge_map := by rw [flowedSt]
    have hPeps : (flowedSt S fuel).P.eps = P.eps := by rw [flowedSt, hP]
    rw [hmap, hPeps] at e2
    refine ⟨e2.symm, ?_⟩
    intro r hr
    rw [← e2] at hr
    obtain ⟨m, hm, hrm⟩ := List.mem_map.mp hr
    have hlohi : m.lo ≤ m.hi + P.eps := build_edge_bounds P S hb m hm
    refine ⟨m, hm, ?_, ?_, ?_, ?_, ?_⟩
    · rw [← hrm]
    · rw [← hrm]
    · rw [← hrm]
      exact le_max_left _ _
    · rw [← hrm]
      exact max_le hlohi (min_le_left _ _)
    · intro heps
      rw [← hrm]
      calc m.lo - P.eps ≤ m.lo := by linarith
        _ ≤ _ := le_max_left _ _
  · rw [solveSt, hP, if_neg hcond] at hs
    obtain ⟨c, d, tn, te, he⟩ :=
      infeasible_shape (flowedSt S fuel) (pushedOf S fuel)
    rw [he] at hs
    cases hs

/-- Witness for C5 at the specification's Scenario B. -/
theorem success_flows_clamped_witness :
    ([(⟨"a", "b", 900⟩ : FlowEntry), ⟨"a", "c", 600⟩, ⟨"b", "sink", 900⟩,
        ⟨"c", "sink", 600⟩, ⟨"s", "a", 1500⟩] =
      (stOfP (probOf inputB)).edge_map.map (fun m =>
        ⟨m.orig_u, m.orig_v, max m.lo (min (m.hi + (probOf inputB).eps)
          (m.lo + Dinic.flow_used
            (flowedSt (stOfP (probOf inputB)) 60).flow m.handle.1
            m.handle.2))⟩)) ∧
    ∀ r ∈ [(⟨"a", "b", 900⟩ : FlowEntry), ⟨"a", "c", 600⟩,
        ⟨"b", "sink", 900⟩, ⟨"c", "sink", 600⟩, ⟨"s", "a", 1500⟩],
      ∃ m ∈ (stOfP (probOf inputB)).edge_map, r.from_ = m.orig_u ∧
        r.to_ = m.orig_v ∧ m.lo ≤ r.flow ∧
        r.flow ≤ m.hi + (probOf inputB).eps ∧
        (0 ≤ (probOf inputB).eps → m.lo - (probOf inputB).eps ≤ r.flow) :=
  success_flows_clamped (probOf inputB) (stOfP (probOf inputB)) 60 1500
    [⟨"a", "b", 900⟩, ⟨"a", "c", 600⟩, ⟨"b", "sink", 900⟩,
      ⟨"c", "sink", 600⟩, ⟨"s", "a", 1500⟩]
    (by decide) (by decide)

/-! ### C2: validity of the tight constraints in the certificate -/

theorem contains_iff {α : Type} [BEq α] [LawfulBEq α] (l : List α) (a : α) :
    l.contains a = true ↔ a ∈ l := List.elem_iff

theorem contains_false_iff {α : Type} [BEq α] [LawfulBEq α] (l : List α)
    (a : α) : l.contains a = false ↔ a ∉ l := by
  rw [← Bool.not_eq_true, not_iff_not]
  exact List.elem_iff

theorem tightQ_iff (S : SolverSt) (R : List ℕ) (m : EdgeMeta) :
    tightQ S R m = true ↔
      m.u_final ∈ R ∧ m.v_final ∉ R ∧
        (geta S.flow.g m.handle.1 m.handle.2).cap ≤ S.P.eps := by
  simp only [tightQ, Bool.and_eq_true, Bool.not_eq_true', decide_eq_true_eq,
    contains_iff, contains_false_iff, and_assoc]

theorem tightCapQ_iff (S : SolverSt) (R : List ℕ) (h : ℕ × ℕ) :
    tightCapQ S R h = true ↔
      h.1 ∈ R ∧ (geta S.flow.g h.1 h.2).to_ ∉ R ∧
        (geta S.flow.g h.1 h.2).cap ≤ S.P.eps := by
  simp only [tightCapQ, Bool.and_eq_true, Bool.not_eq_true',
    decide_eq_true_eq, contains_iff, contains_false_iff, and_assoc]

/-- Every entry produced by the tight-edge fold stems from a metadata record
that passes the straddle-and-saturation test. -/
theorem tightEdgesGo_mem (S : SolverSt) (R : List ℕ) :
    ∀ (ms : List EdgeMeta) (seen : List (String × String)) (x : TightEdge),
      x ∈ tightEdgesGo S R ms seen →
      ∃ m ∈ ms, m.orig_u = x.from_ ∧ m.orig_v = x.to_ ∧ tightQ S R m = true
  | [], seen, x, hx => by cases hx
  | m :: rest, seen, x, hx => by
    rw [tightEdgesGo] at hx
    by_cases hq : tightQ S R m = true ∧
        seen.contains (m.orig_u, m.orig_v) = false
    · rw [if_pos (by rw [hq.1, hq.2]; rfl)] at hx
      rcases List.mem_cons.mp hx with hx | hx
      · exact ⟨m, List.mem_cons_self _ _, by rw [hx], by rw [hx], hq.1⟩
      · obtain ⟨m', hm', h1, h2, h3⟩ := tightEdgesGo_mem S R rest _ x hx
        exact ⟨m', List.mem_cons_of_mem _ hm', h1, h2, h3⟩
    · have : (tightQ S R m && !seen.contains (m.orig_u, m.orig_v)) = false := by
        rcases Bool.eq_false_or_eq_true (tightQ S R m) with h | h
        · rcases Bool.eq_false_or_eq_true
              (seen.contains (m.orig_u, m.orig_v)) with h' | h'
          · rw [h, h']; rfl
          · exact absurd ⟨h, h'⟩ hq
        · rw [h]; rfl
      rw [if_neg (by rw [this]; exact Bool.false_ne_true)] at hx
      obtain ⟨m', hm', h1, h2, h3⟩ := tightEdgesGo_mem S R rest _ x hx
      exact ⟨m', List.mem_cons_of_mem _ hm', h1, h2, h3⟩

/-- Entries of the certificate's final tight-edge list (before or after the
deficit shares are filled in) stem from qualifying metadata records. -/
theorem infeasible_cert_tight (S : SolverSt) (total : ℚ)
    (cut : List String) (d : ℚ) (tn : List String) (te : List TightEdge)
    (hc : _infeasible_certificate S total = .infeasible cut d tn te) :
    (∀ x ∈ te, ∃ m ∈ S.edge_map,
      m.orig_u = x.from_ ∧ m.orig_v = x.to_ ∧
      m.u_final ∈ S.flow.residual_reachable_from S.SS ∧
      m.v_final ∉ S.flow.residual_reachable_from S.SS ∧
      (geta S.flow.g m.handle.1 m.handle.2).cap ≤ S.P.eps) ∧
    (∀ v ∈ tn, ∃ h : ℕ × ℕ, (v, h) ∈ S.cap_arc_handle ∧
      h.1 ∈ S.flow.residual_reachable_from S.SS ∧
      (geta S.flow.g h.1 h.2).to_ ∉ S.flow.residual_reachable_from S.SS ∧
      (geta S.flow.g h.1 h.2).cap ≤ S.P.eps) := by
  simp only [_infeasible_certificate] at hc
  injection hc with e1 e2 e3 e4
  constructor
  · intro x hx
    rw [← e4] at hx
    have hx' : ∃ y ∈ tightEdgesGo S (S.flow.residual_reachable_from S.SS)
        S.edge_map [], y.from_ = x.from_ ∧ y.to_ = x.to_ := by
      by_cases hcond : 1 ≤ (tightEdgesGo S
          (S.flow.residual_reachable_from S.SS) S.edge_map []).length ∧
          S.P.eps < max 0 (S.required - total)
      · rw [if_pos hcond] at hx
        obtain ⟨y, hy, hyx⟩ := List.mem_map.mp hx
        exact ⟨y, hy, by rw [← hyx], by rw [← hyx]⟩
      · rw [if_neg hcond] at hx
        exact ⟨x, hx, rfl, rfl⟩
    obtain ⟨y, hy, hf, ht⟩ := hx'
    obtain ⟨m, hm, h1, h2, h3⟩ :=
      tightEdgesGo_mem S (S.flow.residual_reachable_from S.SS)
        S.edge_map [] y hy
    rw [tightQ_iff] at h3
    exact ⟨m, hm, by rw [h1, hf], by rw [h2, ht], h3.1, h3.2.1, h3.2.2⟩
  · intro v hv
    rw [← e3, sortStr] at hv
    have hv' := (List.perm_insertionSort strLE _).mem_iff.mp hv
    obtain ⟨p, hp, hpv⟩ := List.mem_map.mp hv'
    have hq := List.of_mem_filter hp
    rw [tightCapQ_iff] at hq
    exact ⟨p.2, by rw [← hpv]; exact ⟨List.mem_of_mem_filter hp,
      hq.1, hq.2.1, hq.2.2⟩⟩

/-- C2: every tight edge and tight node-cap arc reported in an
infeasibility certificate has residual capacity `≤ eps` in the final
residual graph and crosses the cut: its transformed tail lies in the
super-source-reachable set `R` and its transformed head does not. -/
theorem certificate_tight_valid (P : Problem) (S : SolverSt) (fuel : ℕ)
    (cut : List String) (d : ℚ) (tn : List String) (te : List TightEdge)
    (hb : build_transformed P = .ok S)
    (hs : solveSt S fuel = .infeasible cut d tn te) :
    (∀ x ∈ te, ∃ m ∈ S.edge_map,
      m.orig_u = x.from_ ∧ m.orig_v = x.to_ ∧
      m.u_final ∈ (flowedSt S fuel).flow.residual_reachable_from S.SS ∧
      m.v_final ∉ (flowedSt S fuel).flow.residual_reachable_from S.SS ∧
      (geta (flowedSt S fuel).flow.g m.handle.1 m.handle.2).cap ≤ P.eps) ∧
    (∀ v ∈ tn, ∃ h : ℕ × ℕ, (v, h) ∈ S.cap_arc_handle ∧
      h.1 ∈ (flowedSt S fuel).flow.residual_reachable_from S.SS ∧
      (geta (flowedSt S fuel).flow.g h.1 h.2).to_ ∉
        (flowedSt S fuel).flow.residual_reachable_from S.SS ∧
      (geta (flowedSt S fuel).flow.g h.1 h.2).cap ≤ P.eps) := by
  have hP : S.P = P := build_P P S hb
  by_cases hcond : S.required - P.eps ≤ pushedOf S fuel + 1 / 10 ^ 12
  · rw [solveSt, hP, if_pos hcond] at hs
    obtain ⟨tot, fl, he⟩ := success_shape (flowedSt S fuel)
    rw [he] at hs
    cases hs
  · rw [solveSt, hP, if_neg hcond] at hs
    have h := infeasible_cert_tight (flowedSt S fuel) (pushedOf S fuel)
      cut d tn te hs
    have hemap : (flowedSt S fuel).edge_map = S.edge_map := by rw [flowedSt]
    have hcap : (flowedSt S fuel).cap_arc_handle = S.cap_arc_handle := by
      rw [flowedSt]
    have hSS : (flowedSt S fuel).SS = S.SS := by rw [flowedSt]
    have hPeps : (flowedSt S fuel).P.eps = P.eps := by rw [flowedSt, hP]
    rw [hemap, hcap, hSS, hPeps] at h
    exact h

/-- Witness for C2 at the specification's Scenario A. -/
theorem certificate_tight_valid_witness :
    (∀ x ∈ [(⟨"a", "b", 100⟩ : TightEdge), ⟨"a", "c", 100⟩],
      ∃ m ∈ (stOfP (probOf inputA)).edge_map,
      m.orig_u = x.from_ ∧ m.orig_v = x.to_ ∧
      m.u_final ∈ Dinic.residual_reachable_from
        (flowedSt (stOfP (probOf inputA)) 60).flow (stOfP (probOf inputA)).SS ∧
      m.v_final ∉ Dinic.residual_reachable_from
        (flowedSt (stOfP (probOf inputA)) 60).flow (stOfP (probOf inputA)).SS ∧
      (geta (flowedSt (stOfP (probOf inputA)) 60).flow.g m.handle.1
        m.handle.2).cap ≤ (probOf inputA).eps) ∧
    (∀ v ∈ ([] : List String), ∃ h : ℕ × ℕ,
      (v, h) ∈ (stOfP (probOf inputA)).cap_arc_handle ∧
      h.1 ∈ Dinic.residual_reachable_from
        (flowedSt (stOfP (probOf inputA)) 60).flow (stOfP (probOf inputA)).SS ∧
      (geta (flowedSt (stOfP (probOf inputA)) 60).flow.g h.1 h.2).to_ ∉
        Dinic.residual_reachable_from
          (flowedSt (stOfP (probOf inputA)) 60).flow
          (stOfP (probOf inputA)).SS ∧
      (geta (flowedSt (stOfP (probOf inputA)) 60).flow.g h.1 h.2).cap ≤
        (probOf inputA).eps) :=
  certificate_tight_valid (probOf inputA) (stOfP (probOf inputA)) 60
    ["a", "s"] 200 [] [⟨"a", "b", 100⟩, ⟨"a", "c", 100⟩]
    (by decide) (by decide)

/-! ### C10: per-(from, to) deduplication of tight edges -/

theorem tightEdgesGo_key_not_seen (S : SolverSt) (R : List ℕ) :
    ∀ (ms : List EdgeMeta) (seen : List (String × String)) (x : TightEdge),
      x ∈ tightEdgesGo S R ms seen → (x.from_, x.to_) ∉ seen
  | [], _, x, hx => by cases hx
  | m :: rest, seen, x, hx => by
    rw [tightEdgesGo] at hx
    by_cases hc : (tightQ S R m && !seen.contains (m.orig_u, m.orig_v)) = true
    · rw [if_pos hc] at hx
      have hseen : (m.orig_u, m.orig_v) ∉ seen := by
        have h2 := ((Bool.and_eq_true _ _).mp hc).2
        rw [Bool.not_eq_true'] at h2
        exact (contains_false_iff _ _).mp h2
      rcases List.mem_cons.mp hx with hx | hx
      · rw [hx]
        exact hseen
      · have hrec := tightEdgesGo_key_not_seen S R rest _ x hx
        exact fun hk => hrec (List.mem_cons_of_mem _ hk)
    · rw [if_neg hc] at hx
      exact tightEdgesGo_key_not_seen S R rest seen x hx

theorem tightEdgesGo_pairwise_keys (S : SolverSt) (R : List ℕ) :
    ∀ (ms : List EdgeMeta) (seen : List (String × String)),
      (tightEdgesGo S R ms seen).Pairwise
        (fun a b => (a.from_, a.to_) ≠ (b.from_, b.to_))
  | [], _ => by rw [tightEdgesGo]; exact List.Pairwise.nil
  | m :: rest, seen => by
    rw [tightEdgesGo]
    by_cases hc : (tightQ S R m && !seen.contains (m.orig_u, m.orig_v)) = true
    · rw [if_pos hc]
      refine List.Pairwise.cons ?_ (tightEdgesGo_pairwise_keys S R rest _)
      intro y hy he
      have hrec := tightEdgesGo_key_not_seen S R rest _ y hy
      exact hrec (by rw [← he]; exact List.mem_cons_self _ _)
    · rw [if_neg hc]
      exact tightEdgesGo_pairwise_keys S R rest seen

theorem tightEdgesGo_covers (S : SolverSt) (R : List ℕ) :
    ∀ (ms : List EdgeMeta) (seen : List (String × String)) (m : EdgeMeta),
      m ∈ ms → tightQ S R m = true →
      (m.orig_u, m.orig_v) ∈ seen ∨
        ∃ x ∈ tightEdgesGo S R ms seen,
          x.from_ = m.orig_u ∧ x.to_ = m.orig_v
  | [], _, m, hm, _ => by cases hm
  | m0 :: rest, seen, m, hm, hq => by
    rw [tightEdgesGo]
    by_cases hc : (tightQ S R m0 && !seen.contains (m0.orig_u, m0.orig_v)) =
        true
    · rw [if_pos hc]
      rcases List.mem_cons.mp hm with he | hm'
      · subst he
        exact Or.inr ⟨_, List.mem_cons_self _ _, rfl, rfl⟩
      · rcases tightEdgesGo_covers S R rest ((m0.orig_u, m0.orig_v) :: seen)
            m hm' hq with hseen | ⟨x, hx, h1, h2⟩
        · rcases List.mem_cons.mp hseen with hk | hk
          · have h1 : m.orig_u = m0.orig_u := congrArg Prod.fst hk
            have h2 : m.orig_v = m0.orig_v := congrArg Prod.snd hk
            exact Or.inr ⟨⟨m0.orig_u, m0.orig_v, 0⟩,
              List.mem_cons_self _ _, h1.symm, h2.symm⟩
          · exact Or.inl hk
        · exact Or.inr ⟨x, List.mem_cons_of_mem _ hx, h1, h2⟩
    · rw [if_neg hc]
      rcases List.mem_cons.mp hm with he | hm'
      · subst he
        have hcont : seen.contains (m.orig_u, m.orig_v) = true := by
          rcases Bool.eq_false_or_eq_true
              (seen.contains (m.orig_u, m.orig_v)) with h | h
          · exact h
          · exact absurd (by rw [hq, h]; rfl) hc
        exact Or.inl ((contains_iff _ _).mp hcont)
      · exact tightEdgesGo_covers S R rest seen m hm' hq

theorem infeasible_cert_pairwise_covers (S : SolverSt) (total : ℚ)
    (cut : List String) (d : ℚ) (tn : List String) (te : List TightEdge)
    (hc : _infeasible_certificate S total = .infeasible cut d tn te) :
    te.Pairwise (fun a b => (a.from_, a.to_) ≠ (b.from_, b.to_)) ∧
    ∀ m ∈ S.edge_map,
      tightQ S (S.flow.residual_reachable_from S.SS) m = true →
      ∃ x ∈ te, x.from_ = m.orig_u ∧ x.to_ = m.orig_v := by
  simp only [_infeasible_certificate] at hc
  injection hc with e1 e2 e3 e4
  by_cases hcond : 1 ≤ (tightEdgesGo S
      (S.flow.residual_reachable_from S.SS) S.edge_map []).length ∧
      S.P.eps < max 0 (S.required - total)
  · rw [if_pos hcond] at e4
    subst e4
    constructor
    · rw [List.pairwise_map]
      exact tightEdgesGo_pairwise_keys S _ S.edge_map []
    · intro m hm hq
      rcases tightEdgesGo_covers S _ S.edge_map [] m hm hq with hk | hk
      · cases hk
      · obtain ⟨x, hx, h1, h2⟩ := hk
        exact ⟨_, List.mem_map_of_mem _ hx, h1, h2⟩
  · rw [if_neg hcond] at e4
    subst e4
    constructor
    · exact tightEdgesGo_pairwise_keys S _ S.edge_map []
    · intro m hm hq
      rcases tightEdgesGo_covers S _ S.edge_map [] m hm hq with hk | hk
      · cases hk
      · exact hk

/-- C10: in every infeasibility certificate the tight-edge list holds at
most one entry per (from, to) pair; every original edge that straddles the
cut saturated is represented by the entry of its pair; and the deficit is
split equally over the deduplicated pairs (deficit divided by the number of
reported entries). -/
theorem certificate_dedup_split (P : Problem) (S : SolverSt) (fuel : ℕ)
    (cut : List String) (d : ℚ) (tn : List String) (te : List TightEdge)
    (hb : build_transformed P = .ok S)
    (hs : solveSt S fuel = .infeasible cut d tn te) :
    te.Pairwise (fun a b => (a.from_, a.to_) ≠ (b.from_, b.to_)) ∧
    (∀ m ∈ S.edge_map,
      tightQ (flowedSt S fuel)
        ((flowedSt S fuel).flow.residual_reachable_from S.SS) m = true →
      ∃ x ∈ te, x.from_ = m.orig_u ∧ x.to_ = m.orig_v) ∧
    (∀ x ∈ te, x.flow_needed = d / (te.length : ℚ)) := by
  have hP : S.P = P := build_P P S hb
  by_cases hcond : S.required - P.eps ≤ pushedOf S fuel + 1 / 10 ^ 12
  · rw [solveSt, hP, if_pos hcond] at hs
    obtain ⟨tot, fl, he⟩ := success_shape (flowedSt S fuel)
    rw [he] at hs
    cases hs
  · rw [solveSt, hP, if_neg hcond] at hs
    have heps : (flowedSt S fuel).P.eps <
        max 0 ((flowedSt S fuel).required - pushedOf S fuel) := by
      push_neg at hcond
      have h1 : P.eps < S.required - pushedOf S fuel := by
        have : (0 : ℚ) < 1 / 10 ^ 12 := by norm_num
        linarith
      have h2 : (flowedSt S fuel).P.eps = P.eps := by rw [flowedSt, hP]
      have h3 : (flowedSt S fuel).required = S.required := by rw [flowedSt]
      rw [h2, h3]
      exact lt_of_lt_of_le h1 (le_max_right _ _)
    have hpc := infeasible_cert_pairwise_covers (flowedSt S fuel)
      (pushedOf S fuel) cut d tn te hs
    have hdef := infeasible_cert_deficit (flowedSt S fuel) (pushedOf S fuel)
      heps cut d tn te hs
    have hemap : (flowedSt S fuel).edge_map = S.edge_map := by rw [flowedSt]
    have hSS : (flowedSt S fuel).SS = S.SS := by rw [flowedSt]
    rw [hemap, hSS] at hpc
    exact ⟨hpc.1, hpc.2, hdef.2.1⟩

/-- Witness for C10 at the specification's Scenario A. -/
theorem certificate_dedup_split_witness :
    ([(⟨"a", "b", 100⟩ : TightEdge), ⟨"a", "c", 100⟩].Pairwise
      (fun a b => (a.from_, a.to_) ≠ (b.from_, b.to_))) ∧
    (∀ m ∈ (stOfP (probOf inputA)).edge_map,
      tightQ (flowedSt (stOfP (probOf inputA)) 60)
        ((flowedSt (stOfP (probOf inputA)) 60).flow.residual_reachable_from
          (stOfP (probOf inputA)).SS) m = true →
      ∃ x ∈ [(⟨"a", "b", 100⟩ : TightEdge), ⟨"a", "c", 100⟩],
        x.from_ = m.orig_u ∧ x.to_ = m.orig_v) ∧
    (∀ x ∈ [(⟨"a", "b", 100⟩ : TightEdge), ⟨"a", "c", 100⟩],
      x.flow_needed = (200 : ℚ) /
        (([(⟨"a", "b", 100⟩ : TightEdge), ⟨"a", "c", 100⟩]).length : ℚ)) :=
  certificate_dedup_split (probOf inputA) (stOfP (probOf inputA)) 60
    ["a", "s"] 200 [] [⟨"a", "b", 100⟩, ⟨"a", "c", 100⟩]
    (by decide) (by decide)

/-! ### C9: coalescing split names back to original names -/

theorem base_name_in (v : String) : base_name (v ++ "__in") = v := by
  have hsuf : "__in".data <:+ (v ++ "__in").data := by
    rw [String.data_append]
    exact List.suffix_append _ _
  simp only [base_name]
  rw [if_pos hsuf, String.data_append]
  have hlen : (v.data ++ "__in".data).length - 4 = v.data.length := by
    rw [List.length_append]
    rfl
  rw [hlen, List.take_left]

theorem base_name_out (v : String) : base_name (v ++ "__out") = v := by
  have hnotin : ¬ "__in".data <:+ (v ++ "__out").data := by
    intro h
    obtain ⟨t, ht⟩ := h
    rw [String.data_append] at ht
    have hl := congrArg List.getLast? ht
    rw [List.getLast?_append, List.getLast?_append] at hl
    have hsome : ∀ (a : Char) (o : Option Char), (some a).or o = some a :=
      fun a o => rfl
    have h1 : "__in".data.getLast? = some 'n' := rfl
    have h2 : "__out".data.getLast? = some 't' := rfl
    rw [h1, h2, hsome, hsome] at hl
    exact absurd hl (by decide)
  have hsuf : "__out".data <:+ (v ++ "__out").data := by
    rw [String.data_append]
    exact List.suffix_append _ _
  simp only [base_name]
  rw [if_neg hnotin, if_pos hsuf, String.data_append]
  have hlen : (v.data ++ "__out".data).length - 5 = v.data.length := by
    rw [List.length_append]
    rfl
  rw [hlen, List.take_left]

/-- C9 (amended): the certificate's cut set reports `base_name` of every
reachable transformed node name; `base_name` recovers the original name for
every split name of a capped node (`v__in`/`v__out` coalesce back to `v`,
for every `v`), and leaves every name not ending in `__in` or `__out`
unchanged — but an uncapped node whose own name ends in one of the split
suffixes is reported with the suffix stripped instead of exactly. -/
theorem base_name_coalesce_spec :
    (∀ (S : SolverSt) (total : ℚ) (cut : List String) (d : ℚ)
      (tn : List String) (te : List TightEdge),
      _infeasible_certificate S total = .infeasible cut d tn te →
      cut = sortDedupStr (((S.flow.residual_reachable_from S.SS).filter
        (fun vid => !(id2name S vid == "SS" || id2name S vid == "TT"))).map
          (fun vid => base_name (id2name S vid)))) ∧
    (∀ v : String,
      base_name (v ++ "__in") = v ∧ base_name (v ++ "__out") = v) ∧
    (∀ nm : String, ¬ "__in".data <:+ nm.data → ¬ "__out".data <:+ nm.data →
      base_name nm = nm) := by
  refine ⟨?_, fun v => ⟨base_name_in v, base_name_out v⟩, ?_⟩
  · intro S total cut d tn te hc
    simp only [_infeasible_certificate] at hc
    injection hc with e1 e2 e3 e4
    exact e1.symm
  · intro nm h1 h2
    simp only [base_name]
    rw [if_neg h1, if_neg h2]

/-- Witness for C9's amended statement. -/
theorem base_name_coalesce_spec_witness :
    base_name ("node" ++ "__in") = "node" ∧
    base_name ("node" ++ "__out") = "node" ∧
    base_name "plain" = "plain" :=
  ⟨(base_name_coalesce_spec.2.1 "node").1,
    (base_name_coalesce_spec.2.1 "node").2,
    base_name_coalesce_spec.2.2 "plain" (by decide) (by decide)⟩

/-- A problem with an uncapped node legitimately named `a__in`. -/
def probIn : Problem :=
  ⟨["s", "a__in", "t"], [⟨"s", "a__in", 0, 10, some "e0"⟩,
    ⟨"a__in", "t", 0, 1 / 2, some "e1"⟩], [], [("s", 1)], "t", 1 / 10 ^ 9⟩

/-- C9 counterexample: on `probIn` the node named `a__in` is on the source
side of the cut (its transformed node is super-source-reachable), yet the
certificate reports it as `a` — `cut_reachable` is `["a", "s"]` and does not
contain `a__in`, so the reported name does not equal the node's name. -/
theorem cut_reachable_strips_plain_suffix_name :
    solveSt (stOfP probIn) 20 =
      .infeasible ["a", "s"] (1 / 2) [] [⟨"a__in", "t", 1 / 2⟩] ∧
    idOf (stOfP probIn).base_nodes "a__in" ∈
      Dinic.residual_reachable_from (flowedSt (stOfP probIn) 20).flow
        (stOfP probIn).SS ∧
    id2name (stOfP probIn) (idOf (stOfP probIn).base_nodes "a__in") =
      "a__in" ∧
    "a__in" ∉ (["a", "s"] : List String) :=
  ⟨by decide, by decide, by decide, by decide⟩

/-! ### C7: malformed input is rejected with a hard error -/

/-- Whether a computation raised (an exception escaped). -/
def isError {ε α : Type} : Except ε α → Prop
  | .error _ => True
  | .ok _ => False

/-- The exception kind of a failed solver run. -/
def errPart : Except (PyErr × Option Dinic) SolveResult → Option PyErr
  | .error (e, _) => some e
  | .ok _ => none

/-- The residual store at raise time of a failed solver run (`none` when
the failure happened during parsing, before any store existed). -/
def errStore : Except (PyErr × Option Dinic) SolveResult → Option Dinic
  | .error (_, d) => d
  | .ok _ => none

/-- Number of arcs held by a store. -/
def numArcs (d : Dinic) : ℕ := (d.g.map List.length).sum

/-- The input-level malformations of one edge record: a missing required
key, or a `lo`/`hi` value `float(...)` rejects. -/
def edgeBad (e : JEdge) : Prop :=
  e.from_ = none ∨ e.to_ = none ∨ e.lo = none ∨ e.hi = none ∨
    (∃ x er, e.lo = some x ∧ pyFloat x = .error er) ∨
    (∃ x er, e.hi = some x ∧ pyFloat x = .error er)

theorem parseEdges_err :
    ∀ (l : List JEdge) (i : ℕ), (∃ je ∈ l, edgeBad je) →
      isError (parseEdges l i)
  | [], _, h => by
    obtain ⟨je, hje, _⟩ := h
    cases hje
  | e :: rest, i, h => by
    simp only [parseEdges, bind, Except.bind]
    cases hu : e.from_ with
    | none => exact trivial
    | some u =>
      dsimp only
      cases hv : e.to_ with
      | none => exact trivial
      | some v =>
        dsimp only
        cases hlo : e.lo with
        | none => exact trivial
        | some xlo =>
          dsimp only
          cases hflo : pyFloat xlo with
          | error er => exact trivial
          | ok qlo =>
            dsimp only
            cases hhi : e.hi with
            | none => exact trivial
            | some xhi =>
              dsimp only
              cases hfhi : pyFloat xhi with
              | error er => exact trivial
              | ok qhi =>
                dsimp only
                cases hrec : parseEdges rest (i + 1) with
                | error er => exact trivial
                | ok es =>
                  exfalso
                  obtain ⟨je, hje, hbad⟩ := h
                  rcases List.mem_cons.mp hje with hje | hje
                  · subst hje
                    rcases hbad with hb | hb | hb | hb | hb | hb
                    · rw [hu] at hb; cases hb
                    · rw [hv] at hb; cases hb
                    · rw [hlo] at hb; cases hb
                    · rw [hhi] at hb; cases hb
                    · obtain ⟨x, er, hx, her⟩ := hb
                      rw [hlo] at hx
                      cases hx
                      rw [hflo] at her
                      cases her
                    · obtain ⟨x, er, hx, her⟩ := hb
                      rw [hhi] at hx
                      cases hx
                      rw [hfhi] at her
                      cases her
                  · have := parseEdges_err rest (i + 1) ⟨je, hje, hbad⟩
                    rw [hrec] at this
                    exact this

theorem convPairs_err :
    ∀ (l : List (String × JVal)),
      (∃ p ∈ l, ∃ er, pyFloat p.2 = .error er) → isError (convPairs l)
  | [], h => by
    obtain ⟨p, hp, _⟩ := h
    cases hp
  | (k, v) :: rest, h => by
    simp only [convPairs, bind, Except.bind]
    cases hv : pyFloat v with
    | error er => exact trivial
    | ok q =>
      dsimp only
      cases hrec : convPairs rest with
      | error er => exact trivial
      | ok rest' =>
        exfalso
        obtain ⟨p, hp, er, her⟩ := h
        rcases List.mem_cons.mp hp with hp | hp
        · subst hp
          rw [hv] at her
          cases her
        · have := convPairs_err rest ⟨p, hp, er, her⟩
          rw [hrec] at this
          exact this

theorem add_edge_EPS (st : Dinic) (fr tn : ℕ) (c : ℚ)
    (w : Dinic × ℕ × ℕ) (he : st.add_edge fr tn c = .ok w) :
    w.1.EPS = st.EPS := by
  simp only [Dinic.add_edge] at he
  by_cases hc : -st.EPS ≤ c
  · rw [if_pos hc] at he
    injection he with h1
    exact (congrArg (fun p => Dinic.EPS p.1) h1).symm
  · rw [if_neg hc] at he
    cases he

theorem addCapArcs_err (bn : List String) :
    ∀ (l : List (String × ℚ)) (st : Dinic),
      (∃ p ∈ l, p.2 < -st.EPS) → isError (addCapArcs bn st l)
  | [], st, h => by
    obtain ⟨p, hp, _⟩ := h
    cases hp
  | (v, c) :: rest, st, h => by
    simp only [addCapArcs, bind, Except.bind]
    cases hadd : st.add_edge (idOf bn (v ++ "__in"))
        (idOf bn (v ++ "__out")) c with
    | error er => exact trivial
    | ok w =>
      dsimp only
      cases hrec : addCapArcs bn w.1 rest with
      | error er => exact trivial
      | ok z =>
        exfalso
        obtain ⟨p, hp, hlt⟩ := h
        rcases List.mem_cons.mp hp with hp | hp
        · subst hp
          simp only [Dinic.add_edge] at hadd
          rw [if_neg (not_le.mpr hlt)] at hadd
          cases hadd
        · have hE := add_edge_EPS st _ _ c w hadd
          have := addCapArcs_err bn rest w.1 ⟨p, hp, by rw [hE]; exact hlt⟩
          rw [hrec] at this
          exact this

theorem addOrigEdges_err (bn : List String) (P : Problem) :
    ∀ (es : List EdgeSpec) (st : Dinic) (bal : List ℚ),
      (∃ ed ∈ es, ed.hi + P.eps < ed.lo) →
      isError (addOrigEdges bn P st bal es)
  | [], st, bal, h => by
    obtain ⟨ed, hed, _⟩ := h
    cases hed
  | e :: rest, st, bal, h => by
    simp only [addOrigEdges]
    by_cases hc : e.lo ≤ e.hi + P.eps
    · rw [if_pos hc]
      simp only [bind, Except.bind]
      cases hadd : st.add_edge (idOf bn (_to_final_name P e.u true))
          (idOf bn (_to_final_name P e.v false)) (max 0 (e.hi - e.lo)) with
      | error er => exact trivial
      | ok w =>
        dsimp only
        cases hrec : addOrigEdges bn P w.1
            (balAdd (balAdd bal (idOf bn (_to_final_name P e.u true)) (-e.lo))
              (idOf bn (_to_final_name P e.v false)) e.lo) rest with
        | error er => exact trivial
        | ok z =>
          exfalso
          obtain ⟨ed, hed, hlt⟩ := h
          rcases List.mem_cons.mp hed with hed | hed
          · subst hed
            exact absurd hc (not_le.mpr hlt)
          · have := addOrigEdges_err bn P rest w.1
              (balAdd (balAdd bal (idOf bn (_to_final_name P e.u true))
                (-e.lo)) (idOf bn (_to_final_name P e.v false)) e.lo)
              ⟨ed, hed, hlt⟩
            rw [hrec] at this
            exact this
    · rw [if_neg hc]
      exact trivial

theorem build_err (P : Problem)
    (h : (∃ p ∈ P.node_caps, p.2 < -P.eps) ∨
      (∃ ed ∈ P.edges, ed.hi + P.eps < ed.lo) ∨
      P.sources.length ≠ 1) :
    isError (build_transformed P) := by
  simp only [build_transformed, bind, Except.bind]
  cases hca : addCapArcs (_all_graph_nodes P)
      (Dinic.init ((_all_graph_nodes P).length + 2) P.eps)
      (sortPairs P.node_caps) with
  | error er => exact trivial
  | ok w =>
    dsimp only
    cases hoe : addOrigEdges (_all_graph_nodes P) P w.1
        (List.replicate (_all_graph_nodes P).length (0 : ℚ))
        (sortEdges P.edges) with
    | error er => exact trivial
    | ok z =>
      dsimp only
      rcases h with hcap | hed | hsrc
      · exfalso
        obtain ⟨p, hp, hlt⟩ := hcap
        have hmem : p ∈ sortPairs P.node_caps :=
          (List.perm_insertionSort pairLE _).mem_iff.mpr hp
        have := addCapArcs_err (_all_graph_nodes P) (sortPairs P.node_caps)
          (Dinic.init ((_all_graph_nodes P).length + 2) P.eps)
          ⟨p, hmem, hlt⟩
        rw [hca] at this
        exact this
      · exfalso
        obtain ⟨ed, hed, hlt⟩ := hed
        have hmem : ed ∈ sortEdges P.edges :=
          (List.perm_insertionSort edgeLE _).mem_iff.mpr hed
        have := addOrigEdges_err (_all_graph_nodes P) P (sortEdges P.edges)
          w.1 (List.replicate (_all_graph_nodes P).length (0 : ℚ))
          ⟨ed, hmem, hlt⟩
        rw [hoe] at this
        exact this
      · cases hs : P.sources with
        | nil => exact trivial
        | cons a l =>
          obtain ⟨a1, a2⟩ := a
          cases l with
          | nil =>
            exfalso
            rw [hs] at hsrc
            exact hsrc rfl
          | cons b l' =>
            cases hhk : hookLoop (_all_graph_nodes P).length
                ((_all_graph_nodes P).length + 1) P.eps z.1 ([]).enum 0 with
            | error er => exact trivial
            | ok u => exact trivial

theorem solve_err_of_parse (data : InputJson) (fuel : ℕ)
    (h : isError (parse_input_json data)) :
    isError (solve_lower_bounded_flow data fuel) := by
  simp only [solve_lower_bounded_flow]
  cases hp : parse_input_json data with
  | error e => exact trivial
  | ok P =>
    rw [hp] at h
    exact h.elim

theorem solve_err_of_build (data : InputJson) (fuel : ℕ) (P : Problem)
    (hp : parse_input_json data = .ok P)
    (h : isError (build_transformed P)) :
    isError (solve_lower_bounded_flow data fuel) := by
  simp only [solve_lower_bounded_flow]
  rw [hp]
  dsimp only
  cases hb : build_transformed P with
  | error ed =>
    obtain ⟨e, d⟩ := ed
    exact trivial
  | ok S =>
    rw [hb] at h
    exact h.elim

theorem parse_err (data : InputJson)
    (h : data.sink = none ∨
      (∃ v er, data.tolerance = some v ∧ pyFloat v = .error er) ∨
      (∃ je ∈ data.edges, edgeBad je) ∨
      (∃ p ∈ dictOf data.node_caps, ∃ er, pyFloat p.2 = .error er) ∨
      (∃ p ∈ dictOf data.sources, ∃ er, pyFloat p.2 = .error er)) :
    isError (parse_input_json data) := by
  simp only [parse_input_json, bind, Except.bind]
  cases ht : pyFloat (data.tolerance.getD (JVal.num ((1 : ℚ) / 10 ^ 9))) with
  | error er => exact trivial
  | ok q =>
    dsimp only
    cases hpe : parseEdges data.edges 0 with
    | error er => exact trivial
    | ok es =>
      dsimp only
      cases hcc : convPairs (dictOf data.node_caps) with
      | error er => exact trivial
      | ok caps =>
        dsimp only
        cases hcs : convPairs (dictOf data.sources) with
        | error er => exact trivial
        | ok srcs =>
          dsimp only
          cases hsink : data.sink with
          | none => exact trivial
          | some sk =>
            exfalso
            rcases h with h | h | h | h | h
            · rw [hsink] at h
              cases h
            · obtain ⟨v, er, hv, her⟩ := h
              rw [hv] at ht
              dsimp only [Option.getD] at ht
              rw [her] at ht
              cases ht
            · have := parseEdges_err data.edges 0 h
              rw [hpe] at this
              exact this
            · obtain ⟨p, hp, er, her⟩ := h
              have := convPairs_err (dictOf data.node_caps) ⟨p, hp, er, her⟩
              rw [hcc] at this
              exact this
            · obtain ⟨p, hp, er, her⟩ := h
              have := convPairs_err (dictOf data.sources) ⟨p, hp, er, her⟩
              rw [hcs] at this
              exact this

/-- C7 (amended): every malformed input — missing required field,
non-numeric value, `hi < lo` beyond tolerance, negative node capacity, or a
source map without exactly one entry — makes the solver raise a hard
validation error, and an erroring run never returns the Ok or Infeasible
result variant.  Parse-level failures happen before any graph construction;
the `hi < lo`, negative-capacity and multi-source assertions, however, fire
during construction (after the store exists), not before it. -/
theorem malformed_input_rejected (data : InputJson) (fuel : ℕ) :
    ((data.sink = none ∨
      (∃ v er, data.tolerance = some v ∧ pyFloat v = .error er) ∨
      (∃ je ∈ data.edges, edgeBad je) ∨
      (∃ p ∈ dictOf data.node_caps, ∃ er, pyFloat p.2 = .error er) ∨
      (∃ p ∈ dictOf data.sources, ∃ er, pyFloat p.2 = .error er)) →
      isError (solve_lower_bounded_flow data fuel)) ∧
    (∀ P, parse_input_json data = .ok P →
      ((∃ p ∈ P.node_caps, p.2 < -P.eps) ∨
       (∃ ed ∈ P.edges, ed.hi + P.eps < ed.lo) ∨
       P.sources.length ≠ 1) →
      isError (solve_lower_bounded_flow data fuel)) ∧
    (isError (solve_lower_bounded_flow data fuel) →
      ∀ r, solve_lower_bounded_flow data fuel ≠ .ok r) := by
  refine ⟨?_, ?_, ?_⟩
  · intro h
    exact solve_err_of_parse data fuel (parse_err data h)
  · intro P hp h
    exact solve_err_of_build data fuel P hp (build_err P h)
  · intro h r he
    rw [he] at h
    exact h

/-- An input with two sources and one edge. -/
def inputTwoSrc : InputJson :=
  ⟨none, [⟨some "s1", some "t", some (jnum 0), some (jnum 1), some "e0"⟩],
    [], [("s1", jnum 1), ("s2", jnum 1)], some "t", []⟩

/-- Witness for C7: the two-source input is rejected with a hard error. -/
theorem malformed_input_rejected_witness :
    isError (solve_lower_bounded_flow inputTwoSrc 20) :=
  (malformed_input_rejected inputTwoSrc 20).2.1 (probOf inputTwoSrc)
    (by decide) (Or.inr (Or.inr (by decide)))

/-- C7 counterexample to "fails fast before any graph construction": on the
two-source input the failure is the single-source assertion, raised only
after the store already holds the two arcs of the parsed edge — graph
construction had taken place. -/
theorem multi_source_error_after_construction :
    errPart (solve_lower_bounded_flow inputTwoSrc 20) =
      some .singleSourceAssert ∧
    (errStore (solve_lower_bounded_flow inputTwoSrc 20)).map numArcs =
      some 2 :=
  ⟨by decide, by decide⟩

/-! ### C3: the residual arc-pair invariant

The store's pairing well-formedness `WF` (each arc's `rev` field points at
its partner and the pairing is involutive — established by `add_edge` for
arcs between distinct nodes), nonnegativity `NN` of all residual
capacities, and the per-pair capacity sum `pairSum` are shown to be
preserved by every step the engine takes. -/

/-- Pairing well-formedness of the store: every arc's `rev` index is valid
and its partner points back. -/
def WF (g : List (List FlowArc)) : Prop :=
  ∀ u, u < g.length → ∀ i, i < (g.getD u []).length →
    (geta g u i).to_ < g.length ∧
    (geta g u i).rev < (g.getD (geta g u i).to_ []).length ∧
    (geta g (geta g u i).to_ (geta g u i).rev).to_ = u ∧
    (geta g (geta g u i).to_ (geta g u i).rev).rev = i

/-- All residual capacities are nonnegative. -/
def NN (g : List (List FlowArc)) : Prop :=
  ∀ u, u < g.length → ∀ i, i < (g.getD u []).length →
    0 ≤ (geta g u i).cap

/-- The residual capacity of the arc at `(u, i)` plus that of its paired
reverse arc. -/
def pairSum (g : List (List FlowArc)) (u i : ℕ) : ℚ :=
  (geta g u i).cap + (geta g (geta g u i).to_ (geta g u i).rev).cap

theorem length_updAt {α : Type} (l : List α) (i : ℕ) (f : α → α) :
    (updAt l i f).length = l.length := by
  induction l generalizing i with
  | nil => rfl
  | cons a t ih =>
    cases i with
    | zero => rfl
    | succ n => simp [updAt, ih]

theorem updAt_oob {α : Type} (l : List α) (i : ℕ) (f : α → α)
    (h : l.length ≤ i) : updAt l i f = l := by
  induction l generalizing i with
  | nil => rfl
  | cons a t ih =>
    cases i with
    | zero => exact absurd h (by simp)
    | succ n =>
      simp only [updAt]
      rw [ih n (by simpa using h)]

theorem getD_updAt_self {α : Type} (l : List α) (i : ℕ) (f : α → α) (d : α)
    (h : i < l.length) : (updAt l i f).getD i d = f (l.getD i d) := by
  induction l generalizing i with
  | nil => cases h
  | cons a t ih =>
    cases i with
    | zero => rfl
    | succ n => exact ih n (by simpa using h)

theorem getD_updAt_ne {α : Type} (l : List α) (i : ℕ) (f : α → α) (d : α)
    (j : ℕ) (h : j ≠ i) : (updAt l i f).getD j d = l.getD j d := by
  induction l generalizing i j with
  | nil => rfl
  | cons a t ih =>
    cases i with
    | zero =>
      cases j with
      | zero => exact absurd rfl h
      | succ m => rfl
    | succ n =>
      cases j with
      | zero => rfl
      | succ m => exact ih n m (fun he => h (by rw [he]))

theorem updE_length (g : List (List FlowArc)) (u i : ℕ)
    (f : FlowArc → FlowArc) : (updE g u i f).length = g.length :=
  length_updAt g u _

theorem updE_rowlen (g : List (List FlowArc)) (u i : ℕ)
    (f : FlowArc → FlowArc) (u' : ℕ) :
    ((updE g u i f).getD u' []).length = (g.getD u' []).length := by
  by_cases hu : u' = u
  · subst hu
    by_cases hr : u' < g.length
    · rw [updE, getD_updAt_self g u' _ [] hr, length_updAt]
    · rw [updE, updAt_oob g u' _ (not_lt.mp hr)]
  · rw [updE, getD_updAt_ne g u _ [] u' hu]

theorem geta_updE_self (g : List (List FlowArc)) (u i : ℕ)
    (f : FlowArc → FlowArc) (hu : u < g.length)
    (hi : i < (g.getD u []).length) :
    geta (updE g u i f) u i = f (geta g u i) := by
  rw [geta, updE, getD_updAt_self g u _ [] hu, getD_updAt_self _ i f _ hi]
  rfl

theorem geta_updE_ne (g : List (List FlowArc)) (u i : ℕ)
    (f : FlowArc → FlowArc) (u' i' : ℕ) (h : u' ≠ u ∨ i' ≠ i) :
    geta (updE g u i f) u' i' = geta g u' i' := by
  rcases h with h | h
  · rw [geta, updE, getD_updAt_ne g u _ [] u' h]
    rfl
  · by_cases hu : u' = u
    · subst hu
      by_cases hr : u' < g.length
      · rw [geta, updE, getD_updAt_self g u' _ [] hr,
          getD_updAt_ne _ i f _ i' h]
        rfl
      · rw [geta, updE, updAt_oob g u' _ (not_lt.mp hr)]
        rfl
    · rw [geta, updE, getD_updAt_ne g u _ [] u' hu]
      rfl

/-- An update function that changes only the capacity field. -/
def capOnly (f : FlowArc → FlowArc) : Prop :=
  ∀ x, (f x).to_ = x.to_ ∧ (f x).rev = x.rev

theorem geta_updE_oob (g : List (List FlowArc)) (u i : ℕ)
    (f : FlowArc → FlowArc)
    (h : ¬ (u < g.length ∧ i < (g.getD u []).length)) :
    geta (updE g u i f) u i = geta g u i := by
  rw [not_and_or] at h
  rcases h with h | h
  · rw [updE, updAt_oob g u _ (not_lt.mp h)]
  · by_cases hg : u < g.length
    · rw [geta, updE, getD_updAt_self g u _ [] hg,
        updAt_oob _ i f (not_lt.mp h)]
      rfl
    · rw [updE, updAt_oob g u _ (not_lt.mp hg)]

theorem geta_updE_fields (g : List (List FlowArc)) (u i : ℕ)
    (f : FlowArc → FlowArc) (hf : capOnly f) (a j : ℕ) :
    (geta (updE g u i f) a j).to_ = (geta g a j).to_ ∧
    (geta (updE g u i f) a j).rev = (geta g a j).rev := by
  by_cases he : a = u ∧ j = i
  · obtain ⟨h1, h2⟩ := he
    subst h1
    subst h2
    by_cases hr : a < g.length ∧ j < (g.getD a []).length
    · rw [geta_updE_self g a j f hr.1 hr.2]
      exact hf _
    · rw [geta_updE_oob g a j f hr]
      exact ⟨rfl, rfl⟩
  · rw [not_and_or] at he
    rw [geta_updE_ne g u i f a j he]
    exact ⟨rfl, rfl⟩

theorem NN_in_range (g : List (List FlowArc)) (hN : NN g) (u i : ℕ) :
    0 ≤ (geta g u i).cap := by
  by_cases hu : u < g.length
  · by_cases hi : i < (g.getD u []).length
    · exact hN u hu i hi
    · rw [geta, List.getD_eq_default _ _ (not_lt.mp hi)]
      exact le_refl 0
  · rw [geta, List.getD_eq_default _ _ (not_lt.mp hu)]
    exact le_refl 0

theorem WF_updE (g : List (List FlowArc)) (u i : ℕ) (f : FlowArc → FlowArc)
    (hf : capOnly f) (h : WF g) : WF (updE g u i f) := by
  intro a ha j hj
  rw [updE_length] at ha
  rw [updE_rowlen] at hj
  obtain ⟨hto, hrev⟩ := geta_updE_fields g u i f hf a j
  have hw := h a ha j hj
  rw [hto, hrev]
  refine ⟨by rw [updE_length]; exact hw.1, by rw [updE_rowlen]; exact hw.2.1,
    ?_, ?_⟩
  · rw [(geta_updE_fields g u i f hf _ _).1]
    exact hw.2.2.1
  · rw [(geta_updE_fields g u i f hf _ _).2]
    exact hw.2.2.2

theorem capOnly_sub (d : ℚ) :
    capOnly (fun x => { x with cap := x.cap - d }) := fun _ => ⟨rfl, rfl⟩

theorem capOnly_add (d : ℚ) :
    capOnly (fun x => { x with cap := x.cap + d }) := fun _ => ⟨rfl, rfl⟩

/-- Effect of one DFS push on the store: subtract `d` from the arc at
`(v, i)` and add `d` to its paired reverse arc at `(w, r)`.
Well-formedness, nonnegativity and every in-range pair's capacity sum are
preserved, and only the two positions of the pair change. -/
theorem push_inv (g : List (List FlowArc)) (v i w r : ℕ) (d : ℚ)
    (hW : WF g) (hN : NN g)
    (hv : v < g.length) (hi : i < (g.getD v []).length)
    (hw : w = (geta g v i).to_) (hr : r = (geta g v i).rev)
    (hd0 : 0 ≤ d) (hdc : d ≤ (geta g v i).cap)
    (hne : w ≠ v) :
    WF (updE (updE g v i (fun x => { x with cap := x.cap - d })) w r
      (fun x => { x with cap := x.cap + d })) ∧
    NN (updE (updE g v i (fun x => { x with cap := x.cap - d })) w r
      (fun x => { x with cap := x.cap + d })) ∧
    (∀ u j, u < g.length → j < (g.getD u []).length →
      pairSum (updE (updE g v i (fun x => { x with cap := x.cap - d })) w r
        (fun x => { x with cap := x.cap + d })) u j = pairSum g u j) ∧
    (∀ u j, u ≠ v → u ≠ w →
      geta (updE (updE g v i (fun x => { x with cap := x.cap - d })) w r
        (fun x => { x with cap := x.cap + d })) u j = geta g u j) := by
  have hWvi := hW v hv i hi
  rw [← hw, ← hr] at hWvi
  obtain ⟨hwlt, hrlt, hback, hbackrev⟩ := hWvi
  have hW1 : WF (updE g v i (fun x => { x with cap := x.cap - d })) :=
    WF_updE g v i _ (capOnly_sub d) hW
  have hW2 : WF (updE (updE g v i (fun x => { x with cap := x.cap - d }))
      w r (fun x => { x with cap := x.cap + d })) :=
    WF_updE _ w r _ (capOnly_add d) hW1
  have hgvi : geta (updE (updE g v i
        (fun x => { x with cap := x.cap - d })) w r
        (fun x => { x with cap := x.cap + d })) v i =
      ⟨(geta g v i).to_, (geta g v i).rev, (geta g v i).cap - d⟩ := by
    rw [geta_updE_ne _ w r _ v i (Or.inl (Ne.symm hne)),
      geta_updE_self g v i _ hv hi]
  have hgwr : geta (updE (updE g v i
        (fun x => { x with cap := x.cap - d })) w r
        (fun x => { x with cap := x.cap + d })) w r =
      ⟨(geta g w r).to_, (geta g w r).rev, (geta g w r).cap + d⟩ := by
    rw [geta_updE_self _ w r _ (by rw [updE_length]; exact hwlt)
      (by rw [updE_rowlen]; exact hrlt),
      geta_updE_ne g v i _ w r (Or.inl hne)]
  have hother : ∀ u j, ¬ (u = v ∧ j = i) → ¬ (u = w ∧ j = r) →
      geta (updE (updE g v i
        (fun x => { x with cap := x.cap - d })) w r
        (fun x => { x with cap := x.cap + d })) u j = geta g u j := by
    intro u j h1 h2
    rw [not_and_or] at h1 h2
    rw [geta_updE_ne _ w r _ u j h2, geta_updE_ne g v i _ u j h1]
  refine ⟨hW2, ?_, ?_, ?_⟩
  · intro u hu j hj
    rw [updE_length, updE_length] at hu
    rw [updE_rowlen, updE_rowlen] at hj
    by_cases h1 : u = v ∧ j = i
    · rw [h1.1, h1.2, hgvi]
      show 0 ≤ (geta g v i).cap - d
      linarith
    · by_cases h2 : u = w ∧ j = r
      · rw [h2.1, h2.2, hgwr]
        show 0 ≤ (geta g w r).cap + d
        have := NN_in_range g hN w r
        linarith
      · rw [hother u j h1 h2]
        exact hN u hu j hj
  · intro u j hu hj
    by_cases h1 : u = v ∧ j = i
    · rw [h1.1, h1.2, pairSum, pairSum, hgvi]
      dsimp only
      rw [← hw, ← hr, hgwr]
      dsimp only
      ring
    · by_cases h2 : u = w ∧ j = r
      · rw [h2.1, h2.2, pairSum, pairSum, hgwr]
        dsimp only
        rw [hback, hbackrev, hgvi]
        dsimp only
        ring
      · rw [pairSum, pairSum, hother u j h1 h2]
        obtain ⟨hult, hjlt, hpb, hpbr⟩ := hW u hu j hj
        have hp1 : ¬ ((geta g u j).to_ = v ∧ (geta g u j).rev = i) := by
          rintro ⟨ha, hb⟩
          rw [ha, hb] at hpb hpbr
          rw [not_and_or] at h2
          rcases h2 with h2 | h2
          · exact h2 (by rw [← hpb, hw])
          · exact h2 (by rw [← hpbr, hr])
        have hp2 : ¬ ((geta g u j).to_ = w ∧ (geta g u j).rev = r) := by
          rintro ⟨ha, hb⟩
          rw [ha, hb] at hpb hpbr
          rw [hback] at hpb
          rw [not_and_or] at h1
          rcases h1 with h1 | h1
          · exact h1 hpb.symm
          · rw [hbackrev] at hpbr
            exact h1 hpbr.symm
        rw [hother _ _ hp1 hp2]
  · intro u j huv huw
    exact hother u j (fun hc => huv hc.1) (fun hc => huw hc.1)

/-- Specification of one `_dfs` call starting at `v` with budget `f`: the
returned amount lies in `[0, f]`, levels are untouched, the store keeps its
shape, well-formedness, nonnegativity and all in-range pair sums, and only
rows of `v` and of nodes at strictly higher level than `v` change. -/
def DfsSpec (st : Dinic) (v : ℕ) (f : ℚ) (out : ℚ × Dinic) : Prop :=
  0 ≤ out.1 ∧ out.1 ≤ f ∧
  out.2.level = st.level ∧
  out.2.g.length = st.g.length ∧
  (∀ u, (out.2.g.getD u []).length = (st.g.getD u []).length) ∧
  WF out.2.g ∧ NN out.2.g ∧
  (∀ u j, u < st.g.length → j < (st.g.getD u []).length →
    pairSum out.2.g u j = pairSum st.g u j) ∧
  (∀ u, u ≠ v → ¬ (st.level.getD v (-1) < st.level.getD u (-1)) →
    ∀ j, geta out.2.g u j = geta st.g u j)

theorem dfsSpec_id (st : Dinic) (v : ℕ) (f : ℚ) (hW : WF st.g)
    (hN : NN st.g) (hf : 0 ≤ f) : DfsSpec st v f (0, st) :=
  ⟨le_refl 0, hf, rfl, rfl, fun _ => rfl, hW, hN,
    fun _ _ _ _ => rfl, fun _ _ _ _ => rfl⟩

theorem dfsLoop_inv (t : ℕ) (dfsRec : Dinic → ℕ → ℚ → ℚ × Dinic)
    (hrec : ∀ st v f, WF st.g → NN st.g → 0 ≤ f →
      DfsSpec st v f (dfsRec st v f)) :
    ∀ (rem i : ℕ) (st : Dinic) (v : ℕ) (f : ℚ),
      WF st.g → NN st.g → 0 ≤ f →
      DfsSpec st v f (dfsLoop dfsRec st v t f i rem)
  | 0, i, st, v, f, hW, hN, hf => by
    rw [dfsLoop]
    exact dfsSpec_id st v f hW hN hf
  | rem + 1, i, st, v, f, hW, hN, hf => by
    simp only [dfsLoop]
    by_cases hib : i < (st.g.getD v []).length
    · rw [if_pos hib]
      have hvlen : v < st.g.length := by
        by_contra hc
        rw [List.getD_eq_default _ _ (not_lt.mp hc)] at hib
        exact absurd hib (by simp)
      have hcap0 : 0 ≤ (geta st.g v i).cap := hN v hvlen i hib
      by_cases hguard : st.EPS < (geta st.g v i).cap ∧
          st.level.getD v (-1) < st.level.getD ((geta st.g v i).to_) (-1)
      · rw [if_pos hguard]
        have hvne : (geta st.g v i).to_ ≠ v := by
          intro hc
          rw [hc] at hguard
          exact lt_irrefl _ hguard.2
        have hspec := hrec { st with it := st.it.set v i }
          ((geta st.g v i).to_) (min f (geta st.g v i).cap) hW hN
          (le_min hf hcap0)
        cases hcall : dfsRec { st with it := st.it.set v i }
            ((geta st.g v i).to_) (min f (geta st.g v i).cap) with
        | mk d st2 =>
          rw [hcall] at hspec
          dsimp only
          obtain ⟨hd0, hdf, hlev, hlen, hrowlen, hWF2, hNN2, hpair2,
            hloc2⟩ := hspec
          have hsame : geta st2.g v i = geta st.g v i :=
            hloc2 v (Ne.symm hvne) (fun hc => absurd hguard.2
              (lt_asymm hc)) i
          by_cases hpush : st2.EPS < d
          · rw [if_pos hpush]
            obtain ⟨hWG, hNG, hpairG, hlocG⟩ := push_inv st2.g v i
              ((geta st.g v i).to_) ((geta st.g v i).rev) d hWF2 hNN2
              (by rw [hlen]; exact hvlen) (by rw [hrowlen]; exact hib)
              (by rw [hsame]) (by rw [hsame]) hd0
              (by rw [hsame]; exact le_trans hdf (min_le_right _ _)) hvne
            refine ⟨hd0, le_trans hdf (min_le_left _ _), hlev, ?_, ?_,
              hWG, hNG, ?_, ?_⟩
            · show (updE (updE st2.g v i _) _ _ _).length = st.g.length
              rw [updE_length, updE_length, hlen]
            · intro u
              show ((updE (updE st2.g v i _) _ _ _).getD u []).length = _
              rw [updE_rowlen, updE_rowlen, hrowlen]
            · intro u j hu hj
              rw [hpairG u j (by rw [hlen]; exact hu)
                (by rw [hrowlen]; exact hj), hpair2 u j hu hj]
            · intro u huv hulev j
              have hune : u ≠ (geta st.g v i).to_ := by
                intro hc
                rw [hc] at hulev
                exact hulev hguard.2
              rw [hlocG u j huv hune, hloc2 u hune (fun hc => hulev
                (lt_trans hguard.2 hc)) j]
          · rw [if_neg hpush]
            have hIH := dfsLoop_inv t dfsRec hrec rem (i + 1) st2 v f
              hWF2 hNN2 hf
            obtain ⟨hd0', hdf', hlev', hlen', hrowlen', hWF', hNN',
              hpair', hloc'⟩ := hIH
            refine ⟨hd0', hdf', hlev'.trans hlev, hlen'.trans hlen,
              fun u => (hrowlen' u).trans (hrowlen u), hWF', hNN', ?_, ?_⟩
            · intro u j hu hj
              rw [hpair' u j (by rw [hlen]; exact hu)
                (by rw [hrowlen]; exact hj), hpair2 u j hu hj]
            · intro u huv hulev j
              have hune : u ≠ (geta st.g v i).to_ := by
                intro hc
                rw [hc] at hulev
                exact hulev hguard.2
              have h1 := hloc' u huv (by rw [hlev]; exact hulev) j
              rw [h1, hloc2 u hune (fun hc => hulev
                (lt_trans hguard.2 hc)) j]
      · rw [if_neg hguard]
        exact dfsLoop_inv t dfsRec hrec rem (i + 1)
          { st with it := st.it.set v i } v f hW hN hf
    · rw [if_neg hib]
      exact dfsSpec_id st v f hW hN hf

theorem dfs_inv : ∀ (fuel : ℕ) (st : Dinic) (v t : ℕ) (f : ℚ),
    WF st.g → NN st.g → 0 ≤ f →
    DfsSpec st v f (Dinic.dfs fuel st v t f)
  | 0, st, v, t, f, hW, hN, hf => by
    rw [Dinic.dfs]
    exact dfsSpec_id st v f hW hN hf
  | fuel + 1, st, v, t, f, hW, hN, hf => by
    rw [Dinic.dfs]
    by_cases hvt : v = t
    · rw [if_pos hvt]
      exact ⟨hf, le_refl f, rfl, rfl, fun _ => rfl, hW, hN,
        fun _ _ _ _ => rfl, fun _ _ _ _ => rfl⟩
    · rw [if_neg hvt]
      exact dfsLoop_inv t (fun s2 w f2 => Dinic.dfs fuel s2 w t f2)
        (fun st' v' f' hW' hN' hf' => dfs_inv fuel st' v' t f' hW' hN' hf')
        _ _ st v f hW hN hf

/-- One step the engine takes on the store during `max_flow`: a BFS
releveling, a cursor reset, or a DFS probe (always launched with a
nonnegative budget — `max_flow` uses `INF`). -/
inductive EngineStep : Dinic → Dinic → Prop where
  | bfs (st : Dinic) (s t : ℕ) : EngineStep st (st.bfs s t).1
  | setIt (st : Dinic) (it' : List ℕ) : EngineStep st { st with it := it' }
  | dfs (st : Dinic) (fuel v t : ℕ) (f : ℚ) (hf : 0 ≤ f) :
      EngineStep st (Dinic.dfs fuel st v t f).2

/-- All states the engine can drive the store through. -/
def EngineReach : Dinic → Dinic → Prop := Relation.ReflTransGen EngineStep

/-- What every engine step preserves. -/
def StoreInv (st st' : Dinic) : Prop :=
  st'.g.length = st.g.length ∧
  (∀ u, (st'.g.getD u []).length = (st.g.getD u []).length) ∧
  WF st'.g ∧ NN st'.g ∧
  (∀ u j, u < st.g.length → j < (st.g.getD u []).length →
    pairSum st'.g u j = pairSum st.g u j)

theorem engineStep_inv (st st' : Dinic) (h : EngineStep st st')
    (hW : WF st.g) (hN : NN st.g) : StoreInv st st' := by
  cases h with
  | bfs s t =>
    exact ⟨rfl, fun _ => rfl, hW, hN, fun _ _ _ _ => rfl⟩
  | setIt it' =>
    exact ⟨rfl, fun _ => rfl, hW, hN, fun _ _ _ _ => rfl⟩
  | dfs fuel v t f hf =>
    obtain ⟨_, _, _, hlen, hrow, hWF, hNN, hpair, _⟩ :=
      dfs_inv fuel st v t f hW hN hf
    exact ⟨hlen, hrow, hWF, hNN, hpair⟩

theorem engineReach_inv (st st' : Dinic) (h : EngineReach st st')
    (hW : WF st.g) (hN : NN st.g) : StoreInv st st' := by
  induction h with
  | refl => exact ⟨rfl, fun _ => rfl, hW, hN, fun _ _ _ _ => rfl⟩
  | tail hsteps hstep ih =>
    obtain ⟨hlen, hrow, hWb, hNb, hpair⟩ := ih
    obtain ⟨hlen2, hrow2, hWc, hNc, hpair2⟩ :=
      engineStep_inv _ _ hstep hWb hNb
    refine ⟨hlen2.trans hlen, fun u => (hrow2 u).trans (hrow u), hWc, hNc,
      ?_⟩
    intro u j hu hj
    rw [hpair2 u j (by rw [hlen]; exact hu) (by rw [hrow]; exact hj),
      hpair u j hu hj]

theorem innerLoop_reach : ∀ (pf df : ℕ) (st : Dinic) (s t : ℕ) (acc : ℚ),
    EngineReach st (innerLoop pf df st s t acc).2
  | 0, _, st, s, t, acc => Relation.ReflTransGen.refl
  | pf + 1, df, st, s, t, acc => by
    rw [innerLoop]
    cases hc : Dinic.dfs df st s t INF with
    | mk fv st' =>
      dsimp only
      have hstep : EngineStep st st' := by
        have h0 := EngineStep.dfs st df s t INF (by rw [INF]; positivity)
        rw [hc] at h0
        exact h0
      by_cases hle : fv ≤ st'.EPS
      · rw [if_pos hle]
        exact Relation.ReflTransGen.single hstep
      · rw [if_neg hle]
        exact Relation.ReflTransGen.head hstep
          (innerLoop_reach pf df st' s t (acc + fv))

theorem maxFlowLoop_reach :
    ∀ (k pf df : ℕ) (st : Dinic) (s t : ℕ) (acc : ℚ),
      EngineReach st (maxFlowLoop k pf df st s t acc).2
  | 0, _, _, st, s, t, acc => Relation.ReflTransGen.refl
  | k + 1, pf, df, st, s, t, acc => by
    rw [maxFlowLoop]
    cases hb : st.bfs s t with
    | mk st1 reached =>
      dsimp only
      have hstep1 : EngineStep st st1 := by
        have h0 := EngineStep.bfs st s t
        rw [hb] at h0
        exact h0
      by_cases hr : reached = true
      · rw [if_pos hr]
        cases hi : innerLoop pf df { st1 with it := List.replicate st1.n 0 }
            s t acc with
        | mk acc' st3 =>
          dsimp only
          have h2 : EngineStep st1 { st1 with it := List.replicate st1.n 0 } :=
            EngineStep.setIt st1 _
          have h3 : EngineReach { st1 with it := List.replicate st1.n 0 }
              st3 := by
            have h0 := innerLoop_reach pf df
              { st1 with it := List.replicate st1.n 0 } s t acc
            rw [hi] at h0
            exact h0
          exact Relation.ReflTransGen.trans
            (Relation.ReflTransGen.head hstep1
              (Relation.ReflTransGen.head h2 h3))
            (maxFlowLoop_reach k pf df st3 s t acc')
      · rw [if_neg hr]
        exact Relation.ReflTransGen.single hstep1

theorem max_flow_reach (fuel : ℕ) (st : Dinic) (s t : ℕ) :
    EngineReach st (Dinic.max_flow fuel st s t).2 :=
  maxFlowLoop_reach fuel fuel fuel st s t 0

theorem getD_append_lt {α : Type} (l l' : List α) (d : α) (i : ℕ)
    (h : i < l.length) : (l ++ l').getD i d = l.getD i d := by
  induction l generalizing i with
  | nil => cases h
  | cons a tl ih =>
    cases i with
    | zero => rfl
    | succ n => exact ih n (by simpa using h)

theorem getD_concat_self {α : Type} (l : List α) (x d : α) :
    (l ++ [x]).getD l.length d = x := by
  induction l with
  | nil => rfl
  | cons a tl ih => exact ih

/-- Core of the `add_edge` analysis: appending a forward/reverse pair
between distinct in-range nodes preserves well-formedness and
nonnegativity, and the new pair's capacity sum is `max 0 c`. -/
theorem WF_extend (g g2 : List (List FlowArc)) (fr tn : ℕ) (c : ℚ)
    (hW : WF g) (hN : NN g) (hfr : fr < g.length) (htn : tn < g.length)
    (hne : fr ≠ tn)
    (hlen2 : g2.length = g.length)
    (hrowfr : g2.getD fr [] =
      g.getD fr [] ++ [⟨tn, (g.getD tn []).length, max 0 c⟩])
    (hrowtn : g2.getD tn [] =
      g.getD tn [] ++ [⟨fr, (g.getD fr []).length, 0⟩])
    (hrowo : ∀ u, u ≠ fr → u ≠ tn → g2.getD u [] = g.getD u []) :
    WF g2 ∧ NN g2 ∧
    pairSum g2 fr (g.getD fr []).length = max 0 c ∧
    (g2.getD fr []).length = (g.getD fr []).length + 1 := by
  have hold : ∀ u j, j < (g.getD u []).length → geta g2 u j = geta g u j := by
    intro u j hj
    by_cases hufr : u = fr
    · subst hufr
      rw [geta, hrowfr, getD_append_lt _ _ _ j hj]
      rfl
    · by_cases hutn : u = tn
      · subst hutn
        rw [geta, hrowtn, getD_append_lt _ _ _ j hj]
        rfl
      · rw [geta, hrowo u hufr hutn]
        rfl
  have hfwd : geta g2 fr (g.getD fr []).length =
      ⟨tn, (g.getD tn []).length, max 0 c⟩ := by
    rw [geta, hrowfr, getD_concat_self]
  have hrv : geta g2 tn (g.getD tn []).length =
      ⟨fr, (g.getD fr []).length, 0⟩ := by
    rw [geta, hrowtn, getD_concat_self]
  have hlenfr : (g2.getD fr []).length = (g.getD fr []).length + 1 := by
    rw [hrowfr, List.length_append]
    rfl
  have hlentn : (g2.getD tn []).length = (g.getD tn []).length + 1 := by
    rw [hrowtn, List.length_append]
    rfl
  have hge : ∀ u, (g.getD u []).length ≤ (g2.getD u []).length := by
    intro u
    by_cases hufr : u = fr
    · subst hufr
      rw [hlenfr]
      omega
    · by_cases hutn : u = tn
      · subst hutn
        rw [hlentn]
        omega
      · rw [hrowo u hufr hutn]
  have hWF2 : WF g2 := by
    intro u hu j hj
    rw [hlen2] at hu
    by_cases hufr : u = fr
    · subst hufr
      rw [hlenfr] at hj
      rcases Nat.lt_succ_iff_lt_or_eq.mp hj with hj' | hj'
      · obtain ⟨h1, h2, h3, h4⟩ := hW u hu j hj'
        rw [hold u j hj']
        exact ⟨by rw [hlen2]; exact h1, lt_of_lt_of_le h2 (hge _),
          by rw [hold _ _ h2]; exact h3, by rw [hold _ _ h2]; exact h4⟩
      · subst hj'
        rw [hfwd]
        dsimp only
        refine ⟨by rw [hlen2]; exact htn, by rw [hlentn]; omega, ?_, ?_⟩
        · rw [hrv]
        · rw [hrv]
    · by_cases hutn : u = tn
      · subst hutn
        rw [hlentn] at hj
        rcases Nat.lt_succ_iff_lt_or_eq.mp hj with hj' | hj'
        · obtain ⟨h1, h2, h3, h4⟩ := hW u hu j hj'
          rw [hold u j hj']
          exact ⟨by rw [hlen2]; exact h1, lt_of_lt_of_le h2 (hge _),
            by rw [hold _ _ h2]; exact h3, by rw [hold _ _ h2]; exact h4⟩
        · subst hj'
          rw [hrv]
          dsimp only
          refine ⟨by rw [hlen2]; exact hfr, by rw [hlenfr]; omega, ?_, ?_⟩
          · rw [hfwd]
          · rw [hfwd]
      · rw [hrowo u hufr hutn] at hj
        obtain ⟨h1, h2, h3, h4⟩ := hW u hu j hj
        rw [hold u j hj]
        exact ⟨by rw [hlen2]; exact h1, lt_of_lt_of_le h2 (hge _),
          by rw [hold _ _ h2]; exact h3, by rw [hold _ _ h2]; exact h4⟩
  have hNN2 : NN g2 := by
    intro u hu j hj
    rw [hlen2] at hu
    by_cases hufr : u = fr
    · subst hufr
      rw [hlenfr] at hj
      rcases Nat.lt_succ_iff_lt_or_eq.mp hj with hj' | hj'
      · rw [hold u j hj']
        exact hN u hu j hj'
      · subst hj'
        rw [hfwd]
        exact le_max_left 0 c
    · by_cases hutn : u = tn
      · subst hutn
        rw [hlentn] at hj
        rcases Nat.lt_succ_iff_lt_or_eq.mp hj with hj' | hj'
        · rw [hold u j hj']
          exact hN u hu j hj'
        · subst hj'
          rw [hrv]
      · rw [hrowo u hufr hutn] at hj
        rw [hold u j hj]
        exact hN u hu j hj
  refine ⟨hWF2, hNN2, ?_, hlenfr⟩
  rw [pairSum, hfwd]
  show max 0 c + (geta g2 tn (g.getD tn []).length).cap = max 0 c
  rw [hrv]
  show max 0 c + 0 = max 0 c
  ring

/-- `add_edge` between distinct in-range nodes keeps the store well-formed
and nonnegative, returns an in-range handle, and creates a pair whose
capacity sum is `max 0 cap` (the store floors the requested capacity at
zero). -/
theorem add_edge_pair (st : Dinic) (fr tn : ℕ) (c : ℚ)
    (w : Dinic × ℕ × ℕ) (hadd : st.add_edge fr tn c = .ok w)
    (hW : WF st.g) (hN : NN st.g)
    (hfr : fr < st.g.length) (htn : tn < st.g.length) (hne : fr ≠ tn) :
    WF w.1.g ∧ NN w.1.g ∧
    w.2.1 < w.1.g.length ∧ w.2.2 < (w.1.g.getD w.2.1 []).length ∧
    pairSum w.1.g w.2.1 w.2.2 = max 0 c := by
  simp only [Dinic.add_edge] at hadd
  by_cases hceps : -st.EPS ≤ c
  swap
  · rw [if_neg hceps] at hadd
    cases hadd
  rw [if_pos hceps] at hadd
  obtain ⟨w1, w21, w22⟩ := w
  injection hadd with h1
  injection h1 with hA hBC
  injection hBC with hB hC
  have hrowfr : (updAt (updAt st.g fr (fun row => row ++
        [(⟨tn, (st.g.getD tn []).length, max 0 c⟩ : FlowArc)])) tn
        (fun row => row ++
        [(⟨fr, (st.g.getD fr []).length, 0⟩ : FlowArc)])).getD fr [] =
      st.g.getD fr [] ++ [⟨tn, (st.g.getD tn []).length, max 0 c⟩] := by
    rw [getD_updAt_ne _ tn _ [] fr hne, getD_updAt_self _ fr _ [] hfr]
  have hrowtn : (updAt (updAt st.g fr (fun row => row ++
        [(⟨tn, (st.g.getD tn []).length, max 0 c⟩ : FlowArc)])) tn
        (fun row => row ++
        [(⟨fr, (st.g.getD fr []).length, 0⟩ : FlowArc)])).getD tn [] =
      st.g.getD tn [] ++ [⟨fr, (st.g.getD fr []).length, 0⟩] := by
    rw [getD_updAt_self _ tn _ [] (by rw [length_updAt]; exact htn),
      getD_updAt_ne _ fr _ [] tn (Ne.symm hne)]
  have hrowo : ∀ u, u ≠ fr → u ≠ tn →
      (updAt (updAt st.g fr (fun row => row ++
        [(⟨tn, (st.g.getD tn []).length, max 0 c⟩ : FlowArc)])) tn
        (fun row => row ++
        [(⟨fr, (st.g.getD fr []).length, 0⟩ : FlowArc)])).getD u [] =
      st.g.getD u [] := by
    intro u hufr hutn
    rw [getD_updAt_ne _ tn _ [] u hutn, getD_updAt_ne _ fr _ [] u hufr]
  obtain ⟨hWF2, hNN2, hps, hlenfr⟩ := WF_extend st.g
    (updAt (updAt st.g fr (fun row => row ++
      [(⟨tn, (st.g.getD tn []).length, max 0 c⟩ : FlowArc)])) tn
      (fun row => row ++
      [(⟨fr, (st.g.getD fr []).length, 0⟩ : FlowArc)]))
    fr tn c hW hN hfr htn hne (by rw [length_updAt, length_updAt])
    hrowfr hrowtn hrowo
  have hw1g : w1.g = updAt (updAt st.g fr (fun row => row ++
      [(⟨tn, (st.g.getD tn []).length, max 0 c⟩ : FlowArc)])) tn
      (fun row => row ++
      [(⟨fr, (st.g.getD fr []).length, 0⟩ : FlowArc)]) := by
    rw [← hA]
  have hidx : w22 = (st.g.getD fr []).length := by
    rw [← hC, hrowfr, List.length_append]
    rfl
  have hfr1 : w21 = fr := hB.symm
  subst hfr1
  refine ⟨by rw [hw1g]; exact hWF2, by rw [hw1g]; exact hNN2, ?_, ?_, ?_⟩
  · dsimp only
    rw [hw1g, length_updAt, length_updAt]
    exact hfr
  · dsimp only
    rw [hw1g, hidx, hlenfr]
    omega
  · dsimp only
    rw [hw1g, hidx]
    exact hps

/-- C3: for every arc pair created by `add_edge` on a well-formed store,
at every store state the engine (bfs / iterator resets / dfs, hence every
point during and after `max_flow`) can reach from the creation state,
every residual capacity is nonnegative and the sum of the created forward
arc's residual capacity and its paired reverse arc's residual capacity
equals `max 0 c`, the capacity the forward arc was created with after the
store floors the request at zero; and the state after `max_flow` is such a
reachable state. -/
theorem arc_pair_invariant (st : Dinic) (fr tn : ℕ) (c : ℚ)
    (w : Dinic × ℕ × ℕ) (hadd : st.add_edge fr tn c = .ok w)
    (hW : WF st.g) (hN : NN st.g)
    (hfr : fr < st.g.length) (htn : tn < st.g.length) (hne : fr ≠ tn) :
    (∀ st', EngineReach w.1 st' →
      NN st'.g ∧ pairSum st'.g w.2.1 w.2.2 = max 0 c) ∧
    (∀ fuel s t, EngineReach w.1 (Dinic.max_flow fuel w.1 s t).2) := by
  obtain ⟨hWF2, hNN2, hlt, hrow, hps⟩ :=
    add_edge_pair st fr tn c w hadd hW hN hfr htn hne
  constructor
  · intro st' hreach
    obtain ⟨hlen, hrowlen, hWc, hNc, hpair⟩ :=
      engineReach_inv _ _ hreach hWF2 hNN2
    exact ⟨hNc, (hpair _ _ hlt hrow).trans hps⟩
  · intro fuel s t
    exact max_flow_reach fuel w.1 s t

/-- Witness for C3: a concrete `add_edge` on a fresh two-node store,
evaluated at the state reached by running `max_flow` over the created
arc. -/
theorem arc_pair_invariant_witness :
    (Dinic.init 2 (1/10^9)).add_edge 0 1 5 =
      .ok (⟨2, [[⟨1, 0, 5⟩], [⟨0, 0, 0⟩]], [0, 0], [0, 0], 1/10^9⟩, 0, 0) ∧
    NN (Dinic.max_flow 3
      (⟨2, [[⟨1, 0, 5⟩], [⟨0, 0, 0⟩]], [0, 0], [0, 0], 1/10^9⟩ : Dinic)
      0 1).2.g ∧
    pairSum (Dinic.max_flow 3
      (⟨2, [[⟨1, 0, 5⟩], [⟨0, 0, 0⟩]], [0, 0], [0, 0], 1/10^9⟩ : Dinic)
      0 1).2.g 0 0 = max 0 5 := by
  refine ⟨by decide, ?_⟩
  have h := arc_pair_invariant (Dinic.init 2 (1/10^9)) 0 1 5
    (⟨2, [[⟨1, 0, 5⟩], [⟨0, 0, 0⟩]], [0, 0], [0, 0], 1/10^9⟩, 0, 0)
    (by decide) (by unfold WF; decide) (by unfold NN; decide)
    (by decide) (by decide) (by decide)
  exact h.1 _ (h.2 3 0 1)

/-- Counterexample to the literal C3: a slightly negative requested
capacity (allowed by the epsilon assertion) is floored to zero, so the
pair's capacity sum is `0`, not the capacity the call was made with. -/
theorem arc_pair_sum_ne_creation_cap :
    (Dinic.init 2 (1/10^9)).add_edge 0 1 (-(1/(2 * 10^9))) =
      .ok (⟨2, [[⟨1, 0, 0⟩], [⟨0, 0, 0⟩]], [0, 0], [0, 0], 1/10^9⟩, 0, 0) ∧
    pairSum [[⟨1, 0, 0⟩], [⟨0, 0, 0⟩]] 0 0 = 0 ∧
    (0 : ℚ) ≠ -(1/(2 * 10^9)) := by
  exact ⟨by decide, by decide, by decide⟩

/-! ### C8: determinism and order-insensitivity of the solver -/

theorem strEq_of_data {a b : String} (h : a.data = b.data) : a = b := by
  cases a
  cases b
  exact congrArg String.mk h

instance : IsAntisymm String strLE := by
  constructor
  intro a b h1 h2
  rcases strLtL_trichotomy a.data b.data with h | h | h
  · rw [strLE, pyStrLt, h] at h2
    exact absurd h2 (by simp)
  · exact strEq_of_data h
  · rw [strLE, pyStrLt, h] at h1
    exact absurd h1 (by simp)

/-- Python `sorted` on strings only depends on the multiset of inputs. -/
theorem sortStr_perm_eq (l l' : List String) (hp : l.Perm l') :
    sortStr l = sortStr l' :=
  List.eq_of_perm_of_sorted
    ((List.perm_insertionSort strLE l).trans
      (hp.trans (List.perm_insertionSort strLE l').symm))
    (List.sorted_insertionSort strLE l)
    (List.sorted_insertionSort strLE l')

/-- `sorted(set(...))` on strings only depends on the multiset of inputs. -/
theorem sortDedupStr_perm_eq (l l' : List String) (hp : l.Perm l') :
    sortDedupStr l = sortDedupStr l' :=
  sortStr_perm_eq _ _ hp.dedup

theorem key3Lt_trichotomy (a b : String × String × String) :
    key3Lt a b = true ∨ a = b ∨ key3Lt b a = true := by
  obtain ⟨a1, a2, a3⟩ := a
  obtain ⟨b1, b2, b3⟩ := b
  simp only [key3Lt, Bool.or_eq_true, Bool.and_eq_true, beq_iff_eq,
    Prod.mk.injEq]
  rcases strLtL_trichotomy a1.data b1.data with h | h | h
  · exact Or.inl (Or.inl h)
  · have e1 : a1 = b1 := strEq_of_data h
    subst e1
    rcases strLtL_trichotomy a2.data b2.data with h' | h' | h'
    · exact Or.inl (Or.inr ⟨rfl, Or.inl h'⟩)
    · have e2 : a2 = b2 := strEq_of_data h'
      subst e2
      rcases strLtL_trichotomy a3.data b3.data with h'' | h'' | h''
      · exact Or.inl (Or.inr ⟨rfl, Or.inr ⟨rfl, h''⟩⟩)
      · exact Or.inr (Or.inl ⟨rfl, rfl, strEq_of_data h''⟩)
      · exact Or.inr (Or.inr (Or.inr ⟨rfl, Or.inr ⟨rfl, h''⟩⟩))
    · exact Or.inr (Or.inr (Or.inr ⟨rfl, Or.inl h'⟩))
  · exact Or.inr (Or.inr (Or.inl h))

theorem key3Lt_asymm (a b : String × String × String)
    (h1 : key3Lt a b = true) (h2 : key3Lt b a = true) : False := by
  obtain ⟨a1, a2, a3⟩ := a
  obtain ⟨b1, b2, b3⟩ := b
  simp only [key3Lt, Bool.or_eq_true, Bool.and_eq_true, beq_iff_eq] at h1 h2
  rcases h1 with h1 | ⟨e1, h1⟩
  · rcases h2 with h2 | ⟨e2, h2⟩
    · exact strLtL_asymm _ _ h1 h2
    · rw [e2] at h1
      rw [strLtL_irrefl] at h1
      exact absurd h1 (by simp)
  · rcases h2 with h2 | ⟨e2, h2⟩
    · rw [e1] at h2
      rw [strLtL_irrefl] at h2
      exact absurd h2 (by simp)
    · rcases h1 with h1 | ⟨f1, h1⟩
      · rcases h2 with h2 | ⟨f2, h2⟩
        · exact strLtL_asymm _ _ h1 h2
        · rw [f2] at h1
          rw [strLtL_irrefl] at h1
          exact absurd h1 (by simp)
      · rcases h2 with h2 | ⟨f2, h2⟩
        · rw [f1] at h2
          rw [strLtL_irrefl] at h2
          exact absurd h2 (by simp)
        · exact strLtL_asymm _ _ h1 h2

theorem key3Lt_trans (a b c : String × String × String)
    (h1 : key3Lt a b = true) (h2 : key3Lt b c = true) :
    key3Lt a c = true := by
  obtain ⟨a1, a2, a3⟩ := a
  obtain ⟨b1, b2, b3⟩ := b
  obtain ⟨c1, c2, c3⟩ := c
  simp only [key3Lt, Bool.or_eq_true, Bool.and_eq_true, beq_iff_eq]
    at h1 h2 ⊢
  rcases h1 with h1 | ⟨e1, h1⟩
  · rcases h2 with h2 | ⟨e2, h2⟩
    · exact Or.inl (strLtL_trans _ _ _ h1 h2)
    · exact Or.inl (e2 ▸ h1)
  · subst e1
    rcases h2 with h2 | ⟨e2, h2⟩
    · exact Or.inl h2
    · subst e2
      refine Or.inr ⟨rfl, ?_⟩
      rcases h1 with h1 | ⟨f1, h1⟩
      · rcases h2 with h2 | ⟨f2, h2⟩
        · exact Or.inl (strLtL_trans _ _ _ h1 h2)
        · exact Or.inl (f2 ▸ h1)
      · subst f1
        rcases h2 with h2 | ⟨f2, h2⟩
        · exact Or.inl h2
        · subst f2
          exact Or.inr ⟨rfl, strLtL_trans _ _ _ h1 h2⟩

instance : IsTotal EdgeSpec edgeLE := by
  constructor
  intro a b
  rcases Bool.eq_false_or_eq_true
      (key3Lt (edge_sort_key b) (edge_sort_key a)) with h | h
  · refine Or.inr ?_
    rcases Bool.eq_false_or_eq_true
        (key3Lt (edge_sort_key a) (edge_sort_key b)) with h' | h'
    · exact absurd (key3Lt_asymm _ _ h' h) not_false
    · exact h'
  · exact Or.inl h

instance : IsTrans EdgeSpec edgeLE := by
  constructor
  intro a b c hab hbc
  rcases Bool.eq_false_or_eq_true
      (key3Lt (edge_sort_key c) (edge_sort_key a)) with h | h
  swap
  · exact h
  · exfalso
    rcases key3Lt_trichotomy (edge_sort_key a) (edge_sort_key b)
        with h' | h' | h'
    · rw [edgeLE, key3Lt_trans _ _ _ h h'] at hbc
      exact absurd hbc (by simp)
    · rw [edgeLE, ← h', h] at hbc
      exact absurd hbc (by simp)
    · rw [edgeLE, h'] at hab
      exact absurd hab (by simp)

theorem edge_key_eq_of_le (a b : EdgeSpec) (h1 : edgeLE a b)
    (h2 : edgeLE b a) : edge_sort_key a = edge_sort_key b := by
  rcases key3Lt_trichotomy (edge_sort_key a) (edge_sort_key b) with h | h | h
  · rw [edgeLE, h] at h2
    exact absurd h2 (by simp)
  · exact h
  · rw [edgeLE, h] at h1
    exact absurd h1 (by simp)

/-- Two sorted edge lists that are permutations of each other and have
pairwise-distinct sort keys are equal. -/
theorem sortedKeyed_eq : ∀ (l l' : List EdgeSpec), l.Perm l' →
    l.Pairwise edgeLE → l'.Pairwise edgeLE →
    l.Pairwise (fun a b => edge_sort_key a ≠ edge_sort_key b) → l = l'
  | [], l', hp, _, _, _ => hp.nil_eq
  | a :: t, [], hp, _, _, _ => absurd hp.symm.nil_eq (by simp)
  | a :: t, b :: t', hp, hs, hs', hd => by
    have hab : a = b := by
      have hmem : a ∈ b :: t' := hp.subset (List.mem_cons_self a t)
      rcases List.mem_cons.mp hmem with h | h
      · exact h
      · have hmem2 : b ∈ a :: t := hp.symm.subset (List.mem_cons_self b t')
        rcases List.mem_cons.mp hmem2 with h2 | h2
        · exact h2.symm
        · exfalso
          have hle1 : edgeLE a b := (List.pairwise_cons.mp hs).1 b h2
          have hle2 : edgeLE b a := (List.pairwise_cons.mp hs').1 a h
          exact (List.pairwise_cons.mp hd).1 b h2
            (edge_key_eq_of_le a b hle1 hle2)
    subst hab
    have ht : t.Perm t' := hp.cons_inv
    rw [sortedKeyed_eq t t' ht (List.pairwise_cons.mp hs).2
      (List.pairwise_cons.mp hs').2 (List.pairwise_cons.mp hd).2]

/-- Sorting by `(from, to, label)` only depends on the multiset of edges
when the keys are pairwise distinct. -/
theorem sortEdges_perm_eq (l l' : List EdgeSpec) (hp : l.Perm l')
    (hd : l.Pairwise (fun a b => edge_sort_key a ≠ edge_sort_key b)) :
    sortEdges l = sortEdges l' := by
  have hsymm : ∀ {x y : EdgeSpec}, edge_sort_key x ≠ edge_sort_key y →
      edge_sort_key y ≠ edge_sort_key x := fun h => Ne.symm h
  have hd1 : (sortEdges l).Pairwise
      (fun a b => edge_sort_key a ≠ edge_sort_key b) :=
    ((List.perm_insertionSort edgeLE l).pairwise_iff hsymm).mpr hd
  have hd2 : (sortEdges l').Pairwise
      (fun a b => edge_sort_key a ≠ edge_sort_key b) :=
    ((List.perm_insertionSort edgeLE l').pairwise_iff hsymm).mpr
      ((hp.pairwise_iff hsymm).mp hd)
  exact sortedKeyed_eq _ _
    ((List.perm_insertionSort edgeLE l).trans
      (hp.trans (List.perm_insertionSort edgeLE l').symm))
    (List.sorted_insertionSort edgeLE l)
    (List.sorted_insertionSort edgeLE l') hd1

theorem to_final_name_congr (P1 P2 : Problem)
    (hnc : P1.node_caps = P2.node_caps) (x : String) (b : Bool) :
    _to_final_name P1 x b = _to_final_name P2 x b := by
  simp only [_to_final_name, hasCap, hnc]

theorem addOrigEdges_P_congr (bn : List String) (P1 P2 : Problem)
    (heps : P1.eps = P2.eps) (hnc : P1.node_caps = P2.node_caps) :
    ∀ l st bal, addOrigEdges bn P1 st bal l = addOrigEdges bn P2 st bal l := by
  intro l
  induction l with
  | nil => intro st bal; rfl
  | cons e rest ih =>
    intro st bal
    simp only [addOrigEdges, heps, to_final_name_congr P1 P2 hnc, bind,
      Except.bind]
    by_cases hc : e.lo ≤ e.hi + P2.eps
    · rw [if_pos hc, if_pos hc]
      cases hae : st.add_edge (idOf bn (_to_final_name P2 e.u true))
          (idOf bn (_to_final_name P2 e.v false)) (max 0 (e.hi - e.lo)) with
      | error err => rfl
      | ok w =>
        dsimp only
        rw [ih]
    · rw [if_neg hc, if_neg hc]

theorem build_transformed_congr (P P' : Problem)
    (hbn : _all_graph_nodes P' = _all_graph_nodes P)
    (hse : sortEdges P'.edges = sortEdges P.edges)
    (hnc : P'.node_caps = P.node_caps)
    (hsrc : P'.sources = P.sources)
    (hsink : P'.sink = P.sink)
    (heps : P'.eps = P.eps) :
    build_transformed P' =
      (build_transformed P).map (fun S => { S with P := P' }) := by
  simp only [build_transformed, bind, Except.bind, hbn, hse, hnc, hsrc,
    hsink, heps, to_final_name_congr P' P hnc,
    addOrigEdges_P_congr _ P' P heps hnc]
  cases hca : addCapArcs (_all_graph_nodes P)
      (Dinic.init ((_all_graph_nodes P).length + 2) P.eps)
      (sortPairs P.node_caps) with
  | error e => rfl
  | ok v =>
    dsimp only
    cases hoe : addOrigEdges (_all_graph_nodes P) P v.1
        (List.replicate (_all_graph_nodes P).length (0 : ℚ))
        (sortEdges P.edges) with
    | error e => rfl
    | ok w =>
      dsimp only
      match hsrc2 : P.sources with
      | [] => rfl
      | (sn, stot) :: [] =>
        dsimp only
        cases hhk : hookLoop (_all_graph_nodes P).length
            ((_all_graph_nodes P).length + 1) P.eps w.1
            (balAdd (balAdd w.2.1
              (idOf (_all_graph_nodes P) (_to_final_name P P.sink false))
              (-stot))
              (idOf (_all_graph_nodes P) (_to_final_name P sn true))
              stot).enum 0 with
        | error e => rfl
        | ok u => rfl
      | a :: b :: rest => rfl

theorem id2name_congr (S1 S2 : SolverSt) (hbn : S1.base_nodes = S2.base_nodes)
    (hSS : S1.SS = S2.SS) (hTT : S1.TT = S2.TT) (vid : ℕ) :
    id2name S1 vid = id2name S2 vid := by
  simp only [id2name, hbn, hSS, hTT]

theorem tightQ_congr (S1 S2 : SolverSt) (hf : S1.flow = S2.flow)
    (he : S1.P.eps = S2.P.eps) (R : List ℕ) (m : EdgeMeta) :
    tightQ S1 R m = tightQ S2 R m := by
  simp only [tightQ, hf, he]

theorem tightCapQ_congr (S1 S2 : SolverSt) (hf : S1.flow = S2.flow)
    (he : S1.P.eps = S2.P.eps) (R : List ℕ) (h : ℕ × ℕ) :
    tightCapQ S1 R h = tightCapQ S2 R h := by
  simp only [tightCapQ, hf, he]

theorem tightEdgesGo_congr (S1 S2 : SolverSt) (hf : S1.flow = S2.flow)
    (he : S1.P.eps = S2.P.eps) (R : List ℕ) :
    ∀ l seen, tightEdgesGo S1 R l seen = tightEdgesGo S2 R l seen := by
  intro l
  induction l with
  | nil => intro seen; rfl
  | cons m rest ih =>
    intro seen
    simp only [tightEdgesGo, tightQ_congr S1 S2 hf he R m, ih]

theorem success_output_congr (S1 S2 : SolverSt)
    (hmap : S1.edge_map = S2.edge_map) (hf : S1.flow = S2.flow)
    (he : S1.P.eps = S2.P.eps) (hs : S1.P.sink = S2.P.sink) :
    _success_output S1 = _success_output S2 := by
  simp only [_success_output, hmap, hf, he, hs]

theorem infeasible_congr (S1 S2 : SolverSt)
    (hf : S1.flow = S2.flow) (hSS : S1.SS = S2.SS) (hTT : S1.TT = S2.TT)
    (hbn : S1.base_nodes = S2.base_nodes)
    (hcap : S1.cap_arc_handle = S2.cap_arc_handle)
    (hmap : S1.edge_map = S2.edge_map) (hreq : S1.required = S2.required)
    (he : S1.P.eps = S2.P.eps) (total : ℚ) :
    _infeasible_certificate S1 total = _infeasible_certificate S2 total := by
  have hid : ∀ vid, id2name S1 vid = id2name S2 vid :=
    id2name_congr S1 S2 hbn hSS hTT
  simp only [_infeasible_certificate, hf, hSS, hcap, hmap, hreq, he, hid,
    tightEdgesGo_congr S1 S2 hf he, tightCapQ_congr S1 S2 hf he]

theorem solveSt_P_congr (S : SolverSt) (P' : Problem)
    (he : P'.eps = S.P.eps) (hs : P'.sink = S.P.sink) (fuel : ℕ) :
    solveSt { S with P := P' } fuel = solveSt S fuel := by
  have hflow : flowedSt { S with P := P' } fuel =
      { flowedSt S fuel with P := P' } := rfl
  have hpush : pushedOf { S with P := P' } fuel = pushedOf S fuel := rfl
  simp only [solveSt, hflow, hpush]
  have hcond : ({ S with P := P' } : SolverSt).required -
      ({ S with P := P' } : SolverSt).P.eps = S.required - S.P.eps := by
    dsimp only
    rw [he]
  rw [hcond]
  by_cases hc : S.required - S.P.eps ≤ pushedOf S fuel + 1 / 10 ^ 12
  · rw [if_pos hc, if_pos hc]
    exact success_output_congr { flowedSt S fuel with P := P' }
      (flowedSt S fuel) rfl rfl he hs
  · rw [if_neg hc, if_neg hc]
    exact infeasible_congr { flowedSt S fuel with P := P' }
      (flowedSt S fuel) rfl rfl rfl rfl rfl rfl rfl he _

/-- The full solver pipeline after parsing only depends on the multiset of
nodes and (given pairwise-distinct sort keys) the multiset of edges. -/
theorem solveProb_perm (P : Problem) (nodes' : List String)
    (edges' : List EdgeSpec) (hn : nodes'.Perm P.nodes)
    (he : edges'.Perm P.edges)
    (hd : P.edges.Pairwise (fun a b => edge_sort_key a ≠ edge_sort_key b))
    (fuel : ℕ) :
    solveProb { P with nodes := nodes', edges := edges' } fuel =
      solveProb P fuel := by
  have hbn : _all_graph_nodes { P with nodes := nodes', edges := edges' } =
      _all_graph_nodes P := by
    simp only [_all_graph_nodes]
    apply sortDedupStr_perm_eq
    exact (hn.append_right _).append_right _
  have hsymm : ∀ {x y : EdgeSpec}, edge_sort_key x ≠ edge_sort_key y →
      edge_sort_key y ≠ edge_sort_key x := fun h => Ne.symm h
  have hse : sortEdges
      ({ P with nodes := nodes', edges := edges' } : Problem).edges =
      sortEdges P.edges := by
    dsimp only
    exact sortEdges_perm_eq edges' P.edges he
      ((he.pairwise_iff hsymm).mpr hd)
  have hb := build_transformed_congr P
    { P with nodes := nodes', edges := edges' } hbn hse rfl rfl rfl rfl
  simp only [solveProb, hb]
  cases hbt : build_transformed P with
  | error e => rfl
  | ok S =>
    dsimp only [Except.map]
    have hP := build_P P S hbt
    rw [solveSt_P_congr S { P with nodes := nodes', edges := edges' }
      (by rw [hP]) (by rw [hP]) fuel]

/-- C8: the solver is deterministic: it is a pure function of its input, so
two runs on the same input give identical output; and the output is
insensitive to the presentation order of the node set and, when the
`(from, to, label)` sort keys are pairwise distinct, of the edge list,
because edges are iterated in sorted key order and reported name lists are
sorted. -/
theorem solver_deterministic (data : InputJson) (fuel : ℕ) (P : Problem)
    (nodes' : List String) (edges' : List EdgeSpec)
    (hn : nodes'.Perm P.nodes) (he : edges'.Perm P.edges)
    (hd : P.edges.Pairwise (fun a b => edge_sort_key a ≠ edge_sort_key b)) :
    solve_lower_bounded_flow data fuel = solve_lower_bounded_flow data fuel ∧
    solveProb { P with nodes := nodes', edges := edges' } fuel =
      solveProb P fuel :=
  ⟨rfl, solveProb_perm P nodes' edges' hn he hd fuel⟩

/-- Two parallel `s → t` edges with distinct labels, listed in label
order. -/
def probC8 : Problem :=
  ⟨["s", "t"],
    [⟨"s", "t", 1, 3, some "e0"⟩, ⟨"s", "t", 0, 2, some "e1"⟩],
    [], [("s", 1)], "t", 1 / 10 ^ 9⟩

/-- The same two edges presented in the opposite order. -/
def edgesC8 : List EdgeSpec :=
  [⟨"s", "t", 0, 2, some "e1"⟩, ⟨"s", "t", 1, 3, some "e0"⟩]

/-- Witness for C8: reversing both the node list and the edge list of a
concrete two-edge problem leaves the solver output unchanged. -/
theorem solver_deterministic_witness :
    (["t", "s"] : List String).Perm probC8.nodes ∧
    edgesC8.Perm probC8.edges ∧
    probC8.edges.Pairwise (fun a b => edge_sort_key a ≠ edge_sort_key b) ∧
    (solve_lower_bounded_flow inputA 20 = solve_lower_bounded_flow inputA 20 ∧
      solveProb { probC8 with nodes := ["t", "s"], edges := edgesC8 } 20 =
        solveProb probC8 20) :=
  ⟨by decide, by decide, by decide,
    solver_deterministic inputA 20 probC8 ["t", "s"] edgesC8
      (by decide) (by decide) (by decide)⟩

end Belts
